import Mathlib

/-!
# Verification of the nix-package-updater structural editor and orchestration

A shallow embedding of the core of dsully/nix-package-updater:

* the rowan/rnix concrete syntax tree, as far as the editor observes it
  (node kinds, child nodes, token text, text ranges), as the inductive
  type `NixCst`;
* the structural editor (`Ast.set`, `Ast.get`, `Ast.platforms`,
  `Ast.update_git`, `Ast.update_vendor` from `src/nix/ast.rs`);
* the build-oracle hash extraction (`extract_hash_from_error` from
  `src/nix/builder.rs` and the inline scan inside `Ast::update_vendor`);
* the per-recipe result record and its mutation operations
  (`UpdateResult` from `src/package.rs`);
* the skip gates of the update strategies (`src/updater/pypi.rs`,
  `src/updater/git.rs`) and the final cleanup gate of `main.rs`.

The external parser `rnix::Root::parse` is not part of the repository; in
the embedding every operation that re-parses the buffer takes the parser
as an explicit function argument `rnixParse : String → NixCst`.  Theorems
that depend on the shape of a re-parsed tree carry an explicit hypothesis
describing the parser result on the concrete buffer involved, which a
witness discharges with a concrete parser function.  Rust byte offsets
are modelled as character offsets; both the text ranges and the buffer
splice are measured the same way, so the two models agree on the edited
buffer.
-/

set_option autoImplicit false

namespace NixUpdater

/-- The `rnix::SyntaxKind` values the editor inspects, plus `TOKEN` for
leaf tokens (rowan tokens are not nodes: `children()` and `descendants()`
skip them) and `NODE_OTHER` for every other node kind. -/
inductive SyntaxKind where
  | NODE_ROOT
  | NODE_APPLY
  | NODE_ATTRPATH_VALUE
  | NODE_ATTRPATH
  | NODE_STRING
  | NODE_ATTR_SET
  | NODE_IDENT
  | NODE_LET_IN
  | NODE_INHERIT
  | NODE_INTERPOL
  | NODE_OTHER
  | TOKEN
  deriving DecidableEq, Repr

open SyntaxKind

/-- A rowan green tree as observed by the editor: interior nodes carry a
kind and an ordered list of children; leaves are tokens carrying source
text (token kinds are never inspected by the editor, only their text). -/
inductive NixCst where
  | node (kind : SyntaxKind) (children : List NixCst)
  | token (s : String)

namespace NixCst

/-- Kind of an element; tokens answer `TOKEN`. -/
def kind : NixCst → SyntaxKind
  | .node k _ => k
  | .token _ => TOKEN

def isToken : NixCst → Bool
  | .token _ => true
  | .node _ _ => false

mutual

/-- `SyntaxNode::text()`: concatenated token text of the subtree. -/
def text : NixCst → String
  | .token s => s
  | .node _ cs => textList cs

def textList : List NixCst → String
  | [] => ""
  | c :: cs => c.text ++ textList cs

end

/-- Direct child *nodes* (`SyntaxNode::children()` skips tokens). -/
def childNodes : NixCst → List NixCst
  | .token _ => []
  | .node _ cs => cs.filter (fun c => !c.isToken)

/-- `SyntaxNode::first_child()`. -/
def firstChild (n : NixCst) : Option NixCst :=
  n.childNodes.head?

mutual

/-- `SyntaxNode::descendants()` paired with the absolute start offset of
each node, in preorder; `off` is the offset of the root of the subtree.
Tokens advance the offset but are not listed. -/
def descendantsFrom : NixCst → Nat → List (NixCst × Nat)
  | .token _, _ => []
  | .node k cs, off => (.node k cs, off) :: descendantsListFrom cs off

def descendantsListFrom : List NixCst → Nat → List (NixCst × Nat)
  | [], _ => []
  | c :: cs, off => descendantsFrom c off ++ descendantsListFrom cs (off + c.text.length)

end

/-- `SyntaxNode::descendants()` (preorder, self first, tokens skipped). -/
def descendants (n : NixCst) : List NixCst :=
  (descendantsFrom n 0).map Prod.fst

end NixCst

/-! ## String helpers mirroring the Rust `str` operations used -/

/-- Is `pat` a prefix of `l`? (`str::starts_with` on char lists). -/
def listStartsWith : List Char → List Char → Bool
  | [], _ => true
  | _ :: _, [] => false
  | p :: ps, c :: cs => p == c && listStartsWith ps cs

/-- Index of the first occurrence of `pat` in `l` (`str::find`). -/
def listFindSub : List Char → List Char → Option Nat
  | _, [] => none
  | pat, c :: cs =>
    if listStartsWith pat (c :: cs) then some 0
    else (listFindSub pat cs).map (· + 1)

/-- `str::contains` for substrings. -/
def strContains (s pat : String) : Bool :=
  (listFindSub pat.data s.data).isSome ||
    -- `str::contains("")` is true on every string
    pat.data.isEmpty

/-- `str::find` for substrings, as a character index. -/
def strFindSub (s pat : String) : Option Nat :=
  listFindSub pat.data s.data

/-- First `n` characters of `s`. -/
def strTake (s : String) (n : Nat) : String :=
  ⟨s.data.take n⟩

/-- All but the first `n` characters of `s`. -/
def strDrop (s : String) (n : Nat) : String :=
  ⟨s.data.drop n⟩

/-- `String::replace_range(start..stop, repl)` on character offsets. -/
def spliceRange (s : String) (start stop : Nat) (repl : String) : String :=
  strTake s start ++ repl ++ strDrop s stop

/-- Leftmost, non-overlapping `str::replace` for a non-empty pattern,
written with a fuel argument so that it is structurally recursive; the
fuel is the input length, which always suffices because each step
consumes at least one character.  (The editor never calls `replace` with
an empty pattern; for an empty pattern this model returns the input
unchanged.) -/
def listReplaceFuel (pat rep : List Char) : Nat → List Char → List Char
  | 0, l => l
  | _ + 1, [] => []
  | fuel + 1, c :: cs =>
    if !pat.isEmpty && listStartsWith pat (c :: cs) then
      rep ++ listReplaceFuel pat rep fuel ((c :: cs).drop pat.length)
    else
      c :: listReplaceFuel pat rep fuel cs

/-- `str::replace` (all occurrences, leftmost first). -/
def strReplace (s pat rep : String) : String :=
  ⟨listReplaceFuel pat.data rep.data s.data.length s.data⟩

/-- The Unicode `White_Space` property (`char::is_whitespace`). -/
def rustIsWhitespace (c : Char) : Bool :=
  c == ' ' || c == '\t' || c == '\n' || c == '\x0b' || c == '\x0c' || c == '\r' ||
    c == '\u0085' || c == ' ' || c == ' ' ||
    (' ' ≤ c && c ≤ ' ') ||
    c == ' ' || c == ' ' || c == ' ' || c == ' ' || c == '　'

/-- `str::trim`: strip leading and trailing whitespace. -/
def rustTrim (s : String) : String :=
  ⟨(s.data.dropWhile rustIsWhitespace).reverse.dropWhile rustIsWhitespace |>.reverse⟩

/-- `str::lines`: split on `\n`, dropping one trailing `\r` per line and
not yielding a final empty line after a trailing `\n`. -/
def rustLines (s : String) : List String :=
  if s.data = [] then []
  else
    let parts := s.data.splitOn '\n'
    let parts := if parts.getLast? = some [] then parts.dropLast else parts
    parts.map (fun l => ⟨if l.getLast? = some '\r' then l.dropLast else l⟩)

/-- Index of the first element satisfying `p` (`str::find(char pred)`). -/
def listFindIdx (p : Char → Bool) : List Char → Option Nat
  | [] => none
  | c :: cs => if p c then some 0 else (listFindIdx p cs).map (· + 1)

/-- `str::split_once(pat)`: the text before and after the first
occurrence of `pat`. -/
def strSplitOnce (s pat : String) : Option (String × String) :=
  match listFindSub pat.data s.data with
  | none => none
  | some i => some (⟨s.data.take i⟩, ⟨s.data.drop (i + pat.data.length)⟩)

/-! ## The structural editor (`src/nix/ast.rs`) -/

open NixCst

/-- `extract_string_value`: the node text with every `"` removed
(Rust `node.text().to_string().replace('"', "")`). -/
def extract_string_value (n : NixCst) : String :=
  ⟨n.text.data.filter (fun c => c ≠ '"')⟩

/-- The interpolation-marker string `${`. -/
def interpOpen : String := "$\x7b"

/-- The interpolation-marker string `}`. -/
def interpClose : String := "\x7d"

/-- The raw child list of a node (tokens included), used when the scan
must track text offsets across tokens. -/
def NixCst.rawChildren : NixCst → List NixCst
  | .token _ => []
  | .node _ cs => cs

/-- The `Ast` state: the raw text buffer plus the parse tree kept in sync
with it (`Ast { content, ast }`).  `Ast::from_ast` sets
`content = ast.tree().to_string()`, i.e. `content = tree.text`. -/
structure Ast where
  content : String
  tree : NixCst

/-- Outcome of the inner child scan of `Ast::set` on one
`NODE_ATTRPATH_VALUE` node. -/
inductive AvScan where
  | interp
  | found (n : NixCst) (off : Nat)
  | nomatch

/-- The inner loop of `Ast::set` over the children of one
`NODE_ATTRPATH_VALUE` node: tracks the `found_attr` flag, returns
`interp` for the interpolation early-return, `found` with the string
node and its absolute offset for a match, `nomatch` otherwise.
`off` is the absolute offset of the first unprocessed child. -/
def scanAvChildren (attrName oldValue : String) : List NixCst → Nat → Bool → AvScan
  | [], _, _ => .nomatch
  | c :: cs, off, foundAttr =>
    match c with
    | .token s => scanAvChildren attrName oldValue cs (off + s.length) foundAttr
    | .node k kids =>
      let cn : NixCst := .node k kids
      match k with
      | NODE_ATTRPATH =>
        scanAvChildren attrName oldValue cs (off + cn.text.length)
          (foundAttr || ((cn.firstChild.map NixCst.text) == some attrName))
      | NODE_STRING =>
        if foundAttr && extract_string_value cn == oldValue then
          if strContains cn.text interpOpen && strContains cn.text interpClose then .interp
          else .found cn off
        else scanAvChildren attrName oldValue cs (off + cn.text.length) foundAttr
      | _ => scanAvChildren attrName oldValue cs (off + cn.text.length) foundAttr

/-- The outer loop of `Ast::set` over all descendants (with offsets):
`some none` models the interpolation early `return Ok(())`,
`some (some (n, off))` a matched string node to replace, `none` the
final `bail!`. -/
def setLoop (attrName oldValue : String) : List (NixCst × Nat) → Option (Option (NixCst × Nat))
  | [] => none
  | (c, off) :: rest =>
    if c.kind = NODE_ATTRPATH_VALUE then
      match scanAvChildren attrName oldValue c.rawChildren off false with
      | .interp => some none
      | .found n o => some (some (n, o))
      | .nomatch => setLoop attrName oldValue rest
    else setLoop attrName oldValue rest

/-- `Ast::set(attr_name, old_value, new_value)`.  The external
`rnix::Root::parse` call that re-derives the tree from the updated
buffer is passed in as `rnixParse`. -/
def Ast.set (rnixParse : String → NixCst) (a : Ast) (attrName oldValue newValue : String) :
    Except String Ast :=
  match setLoop attrName oldValue (a.tree.descendantsFrom 0) with
  | some none => .ok a
  | some (some (n, off)) =>
    let newString := "\"" ++ newValue ++ "\""
    let newContent := spliceRange a.content off (off + n.text.length) newString
    .ok { content := newContent, tree := rnixParse newContent }
  | none =>
    .error ("Attribute " ++ attrName ++ " with value " ++ oldValue ++ " not found")

/-- The key/value scan of `get_internal` over the children of one
`NODE_ATTRPATH_VALUE` node: `key` is set by a `NODE_ATTRPATH` child whose
first child has text `attrName`; `value` is overwritten by each
`NODE_STRING` (quote-stripped) or `NODE_IDENT` (literal text) child; the
entry yields a result only when both are set. -/
def kvScan (attrName : String) : List NixCst → Bool → Option String → Option String
  | [], key, value => if key then value else none
  | c :: cs, key, value =>
    match c.kind with
    | NODE_ATTRPATH =>
      kvScan attrName cs (key || ((c.firstChild.map NixCst.text) == some attrName)) value
    | NODE_STRING => kvScan attrName cs key (some (extract_string_value c))
    | NODE_IDENT => kvScan attrName cs key (some c.text)
    | _ => kvScan attrName cs key value

/-- `Ast::get_internal`: scan all `NODE_ATTR_SET` descendants, and inside
each its direct `NODE_ATTRPATH_VALUE` children, returning the first
key/value hit. -/
def getInternal (attrName : String) (t : NixCst) : Option String :=
  t.descendants.findSome? (fun n =>
    if n.kind = NODE_ATTR_SET then
      n.childNodes.findSome? (fun av =>
        if av.kind = NODE_ATTRPATH_VALUE then kvScan attrName av.childNodes false none else none)
    else none)

/-- One descendant step of `get_from_let_or_inherit`: a `NODE_LET_IN`
binding with a string value returns `some (some v)`; a `NODE_INHERIT`
naming the binding returns `some none` (the early `return None`);
otherwise `none` (keep scanning). -/
def letInheritStep (bindingName : String) (n : NixCst) : Option (Option String) :=
  if n.kind = NODE_LET_IN then
    n.childNodes.findSome? (fun lc =>
      if lc.kind = NODE_ATTRPATH_VALUE && ((lc.firstChild.map NixCst.text) == some bindingName) then
        (lc.childNodes.findSome? (fun vc =>
          if vc.kind = NODE_STRING then some (extract_string_value vc) else none)).map some
      else none)
  else if n.kind = NODE_INHERIT then
    if n.childNodes.any (fun ic => ic.kind == NODE_IDENT && ic.text == bindingName) then
      some none
    else none
  else none

/-- `Ast::get_from_let_or_inherit`. -/
def getLetOrInherit (bindingName : String) (t : NixCst) : Option String :=
  match t.descendants.findSome? (letInheritStep bindingName) with
  | some r => r
  | none => none

/-- `Ast::get(field_name)`: attribute-set entries first, then let
bindings / inherits. -/
def Ast.get (a : Ast) (fieldName : String) : Option String :=
  match getInternal fieldName a.tree with
  | some v => some v
  | none => getLetOrInherit fieldName a.tree

/-! ## Platform blocks (`Ast::platforms`) -/

/-- `HashMap::insert`: overwrite the value when the key is present, else
append.  (Only membership, lookup and emptiness of the map are observed
by the claims; this list model preserves all three.) -/
def hmInsert (m : List (String × String)) (k v : String) : List (String × String) :=
  if m.any (fun p => p.1 == k) then m.map (fun p => if p.1 == k then (k, v) else p)
  else m ++ [(k, v)]

structure PlatformBlock where
  platform_name : String
  attributes : List (String × String)
  deriving Repr, DecidableEq

/-- `str::trim_matches('"')`: strip all leading and trailing quotes. -/
def trimMatchesQuote (s : String) : String :=
  ⟨(s.data.dropWhile (fun c => c == '"')).reverse.dropWhile (fun c => c == '"') |>.reverse⟩

/-- One step of the inner attribute loop of `platformAttrsOf`: a
`NODE_ATTRPATH_VALUE` child with a first child (its name) and a first
`NODE_STRING` child (its value) is inserted. -/
def innerBody (acc2 : List (String × String)) (attr : NixCst) : List (String × String) :=
  if attr.kind = NODE_ATTRPATH_VALUE then
    match attr.firstChild with
    | some ann =>
      match attr.childNodes.find? (fun av => av.kind == NODE_STRING) with
      | some sv => hmInsert acc2 ann.text (extract_string_value sv)
      | none => acc2
    | none => acc2
  else acc2

/-- The attribute collection for one platform entry: every
`NODE_ATTR_SET` child of the entry is scanned; inside, every
`NODE_ATTRPATH_VALUE` child with a first child (its name) and a first
`NODE_STRING` child (its value) is inserted. -/
def platformAttrsOf (entry : NixCst) : List (String × String) :=
  entry.childNodes.foldl (fun acc pv =>
    if pv.kind = NODE_ATTR_SET then
      pv.childNodes.foldl (fun acc2 attr =>
        if attr.kind = NODE_ATTRPATH_VALUE then
          match attr.firstChild with
          | some ann =>
            match attr.childNodes.find? (fun av => av.kind == NODE_STRING) with
            | some sv => hmInsert acc2 ann.text (extract_string_value sv)
            | none => acc2
          | none => acc2
        else acc2) acc
    else acc) []

/-- The blocks contributed by one container attribute
(`platformData = { ... }` or `dists = { ... }`): the first
`NODE_ATTR_SET` value child is taken (then `break`), and each of its
`NODE_ATTRPATH_VALUE` children with a nonempty attribute collection
yields a block. -/
def platformsOfContainer (containerAv : NixCst) : List PlatformBlock :=
  match containerAv.childNodes.find? (fun v => v.kind == NODE_ATTR_SET) with
  | none => []
  | some vset =>
    vset.childNodes.foldl (fun blocks entry =>
      if entry.kind = NODE_ATTRPATH_VALUE then
        match entry.firstChild with
        | some pn =>
          let attrs := platformAttrsOf entry
          if attrs.isEmpty then blocks
          else blocks ++ [{ platform_name := trimMatchesQuote pn.text, attributes := attrs }]
        | none => blocks
      else blocks) []

/-- `Ast::platforms()`. -/
def Ast.platforms (a : Ast) : List PlatformBlock :=
  a.tree.descendants.foldl (fun blocks c =>
    if c.kind = NODE_ATTRPATH_VALUE then
      match c.firstChild with
      | some ap =>
        if ap.text == "platformData" || ap.text == "dists" then blocks ++ platformsOfContainer c
        else blocks
      | none => blocks
    else blocks) []

/-! ## Composite updates (`Ast::update_git`, `Ast::update_vendor`) -/

/-- `Ast::update_git(old_rev, new_rev, new_hash, old_hash)`. -/
def Ast.update_git (rnixParse : String → NixCst) (a : Ast)
    (old_rev : Option String) (new_rev new_hash : String) (old_hash : Option String) :
    Except String Ast := do
  let a1 ←
    match old_rev with
    | some orev =>
      if new_rev ≠ "" then do
        let ar ← a.set rnixParse "rev" orev new_rev
        match ar.get "version" with
        | some cv =>
          if strContains cv orev then
            ar.set rnixParse "version" cv (strReplace cv orev new_rev)
          else pure ar
        | none => pure ar
      else pure a
    | none => pure a
  let old_hash_value :=
    match old_hash with
    | some h => h
    | none => (a1.get "hash").getD ""
  if old_hash_value ≠ "" && new_hash ≠ "" then
    a1.set rnixParse "hash" old_hash_value new_hash
  else
    pure a1

/-- The inline diagnostic scan of `Ast::update_vendor`:
`stderr.lines().find_map(|l| Some(l.trim().split_once("got:")?.1.trim().to_string()))`.
Note that it keeps the whole trimmed remainder of the line after the
marker, not only the first whitespace-delimited token. -/
def vendorScanHash (stderr : String) : Option String :=
  (rustLines stderr).findSome? (fun l =>
    (strSplitOnce (rustTrim l) "got:").map (fun pr => rustTrim pr.2))

/-- `Ast::update_vendor(package, hash_type, pb)`.  The external builder
invocation is modelled by its observable outcome `buildStderr`
(`none` = `nix build` succeeded, `some stderr` = it failed with the given
diagnostics); the file write that precedes the build is returned as the
second component (`fs::write(&package.path, self.content())`). -/
def Ast.update_vendor (rnixParse : String → NixCst) (a : Ast) (hash_type : String)
    (buildStderr : Option String) : Except String (Ast × String) :=
  let written := a.content
  match buildStderr with
  | none => .ok (a, written)
  | some stderr =>
    match vendorScanHash stderr with
    | none => .ok (a, written)
    | some new_hash =>
      let attr_name := hash_type ++ "Hash"
      match a.get attr_name with
      | some old_hash => (a.set rnixParse attr_name old_hash new_hash).map (fun x => (x, written))
      | none => (a.set rnixParse attr_name "" new_hash).map (fun x => (x, written))

/-! ## Build-oracle hash extraction (`src/nix/builder.rs`) -/

/-- `extract_hash_from_error(stderr)`: find the first `got:`, trim the
remainder, cut at the first whitespace character. -/
def extract_hash_from_error (stderr : String) : Option String :=
  match strFindSub stderr "got:" with
  | none => none
  | some pos =>
    let after := rustTrim (strDrop stderr (pos + 4))
    match listFindIdx rustIsWhitespace after.data with
    | some e => some (strTake after e)
    | none => some after

/-! ## Per-recipe results (`src/package.rs`) -/

inductive UpdateStatus where
  | Built
  | Cached
  | Failed
  | Updated
  | UpToDate
  | Unknown
  deriving DecidableEq, Repr

/-- `UpdateResult`: a `HashSet` of status flags plus message and old/new
version and revision pairs. -/
structure UpdateResultS where
  status : Finset UpdateStatus
  message : Option String
  old_version : Option String
  new_version : Option String
  old_git_commit : Option String
  new_git_commit : Option String
  deriving DecidableEq

/-- `UpdateResult::default()`. -/
def UpdateResultS.empty : UpdateResultS :=
  { status := ∅, message := none, old_version := none, new_version := none,
    old_git_commit := none, new_git_commit := none }

/-- The result-mutation operations the strategies and the orchestrator
invoke on an `UpdateResult`. -/
inductive ResultOp where
  | failed (msg : String)
  | message (msg : String)
  | success
  | up_to_date
  | version (old new : String)
  | git_commit (old new : String)
  deriving DecidableEq, Repr

/-- One mutation step:
`failed` clears the flag set, inserts `Failed` and sets the message;
`success` inserts `Updated`; `up_to_date` inserts `UpToDate` and sets the
message; `version` records the pair only when the old version contains
neither `${` nor `}`; `git_commit` records the pair unconditionally. -/
def UpdateResultS.apply (r : UpdateResultS) : ResultOp → UpdateResultS
  | .failed msg => { r with status := {UpdateStatus.Failed}, message := some msg }
  | .message msg => { r with message := some msg }
  | .success => { r with status := insert UpdateStatus.Updated r.status }
  | .up_to_date =>
    { r with status := insert UpdateStatus.UpToDate r.status, message := some "Up to date" }
  | .version old new =>
    if !strContains old interpOpen && !strContains old interpClose then
      { r with old_version := some old, new_version := some new }
    else r
  | .git_commit old new => { r with old_git_commit := some old, new_git_commit := some new }

/-- A whole mutation history applied to the fresh per-recipe result. -/
def UpdateResultS.ofOps (ops : List ResultOp) : UpdateResultS :=
  ops.foldl UpdateResultS.apply UpdateResultS.empty

/-- The three-valued cell rendered for one queried flag in the report. -/
inductive StatusMark where
  | cross
  | check
  | dash
  deriving DecidableEq, Repr

/-- `UpdateResult::status(check)`: `✗` whenever `Failed` is present, `✓`
for a present `Built`/`Updated`/`Cached` flag, `-` otherwise. -/
def UpdateResultS.display (r : UpdateResultS) (check : UpdateStatus) : StatusMark :=
  if UpdateStatus.Failed ∈ r.status then .cross
  else if (check = .Built ∨ check = .Updated ∨ check = .Cached) ∧ check ∈ r.status then .check
  else .dash

/-! ## Update strategies (`src/updater/pypi.rs`, `src/updater/git.rs`) -/

/-- Modelled from the spec: the `Updater` trait that declares
`should_skip_update` is not under `src/` (only its implementors and
callers are).  Spec §4.2: "skip iff current identity == latest identity
and a force override is not set". -/
def should_skip_update (force : Bool) (current latest : String) : Bool :=
  current == latest && !force

/-- What a strategy run leaves behind: the final result record and every
buffer content written to the recipe file, in order. -/
structure StrategyOut where
  result : UpdateResultS
  writes : List String
  deriving DecidableEq

/-- The head of `PyPiUpdater::update` (`src/updater/pypi.rs` up to the
skip gate): the client query outcome is `clientVersion`
(`none` = package not on PyPI); everything after the gate (the platform
loop, the version rewrite and the file write) is the continuation
`rest`, which receives the latest version. -/
def pypiUpdateGate (force : Bool) (clientVersion : Option String) (pkgVersion : String)
    (r : UpdateResultS) (rest : String → UpdateResultS → StrategyOut) : StrategyOut :=
  match clientVersion with
  | none => { result := r.apply (.failed "Package not found on PyPI"), writes := [] }
  | some latest =>
    if should_skip_update force pkgVersion latest then
      { result := r.apply .up_to_date, writes := [] }
    else rest latest r

/-- The package state a `GitRepository::update` run starts from. -/
structure GitPkg where
  nix_hash : String
  tree : NixCst
  result : UpdateResultS

/-- `Package::ast()`: a fresh editor state from the discovery-time parse
(`content = tree.to_string()`). -/
def GitPkg.ast0 (p : GitPkg) : Ast :=
  { content := p.tree.text, tree := p.tree }

/-- `GitRepository::update` (`src/updater/git.rs`): `nurl` is the
`Nix::hash_and_rev` outcome (`none` = nurl failed), `buildStderr` the
builder outcome for the `update_vendor` call when one happens.  Returns
the final result record and the recipe-file writes. -/
def gitUpdate (rnixParse : String → NixCst) (force : Bool)
    (nurl : Option (String × Option String)) (pkg : GitPkg) (buildStderr : Option String) :
    Except String StrategyOut :=
  match nurl with
  | none => .ok { result := pkg.result.apply (.failed "nurl failed"), writes := [] }
  | some (new_hash, new_rev) =>
    let ast := pkg.ast0
    let current_rev := ast.get "rev"
    if pkg.nix_hash == new_hash && current_rev == new_rev && !force then
      .ok { result := pkg.result.apply .up_to_date, writes := [] }
    else do
      let a1 ← ast.update_git rnixParse current_rev (new_rev.getD "") new_hash (some pkg.nix_hash)
      let a2 ←
        match a1.get "vendorHash" with
        | some ov => a1.set rnixParse "vendorHash" ov ""
        | none => pure a1
      let step3 ←
        if (a2.get "cargoHash").isSome then
          (a2.update_vendor rnixParse "cargo" buildStderr).map (fun p => (p.1, [p.2]))
        else pure (a2, ([] : List String))
      let res :=
        match current_rev, new_rev with
        | some orv, some nrv => (pkg.result.apply .success).apply (.git_commit orv nrv)
        | _, _ => pkg.result.apply .success
      .ok { result := res, writes := step3.2 ++ [step3.1.content] }

/-! ## Final cleanup gate (`src/main.rs`) -/

/-- The tail of `main` as a function of the final per-recipe status sets:
`main` returns early when no packages were found (line 130) and when
every package is `UpToDate` (line 169); otherwise it removes the shared
build-log directory exactly when every package carries `Built`
(lines 212–214).  The result is whether `build-results` is removed. -/
def cleanupRemovesLogs (statuses : List (Finset UpdateStatus)) : Bool :=
  if statuses.isEmpty then false
  else if statuses.all (fun s => decide (UpdateStatus.UpToDate ∈ s)) then false
  else statuses.all (fun s => decide (UpdateStatus.Built ∈ s))

/-! ## The legacy helpers (`src/updater/packages/common.rs`) -/

/-- Modelled from the spec: `find_attr_value` is declared in a `src/nix`
module file that is not under `src/` (only its callers are).  It is the
scope walk of §4.1 `get`, with the §4.1 caveat that "an empty value
cannot be located as a found attribute by the scope walk". -/
def find_attr_value (t : NixCst) (name : String) : Option String :=
  match Ast.get { content := t.text, tree := t } name with
  | some v => if v = "" then none else some v
  | none => none

/-- Modelled from the spec: `update_attr_value` is declared in the same
missing module file.  Spec §4.1 `set`: replace the matched value's text
span with the quoted new value; as used by the legacy helpers it is a
plain content-to-content function, so a failed match leaves the content
unchanged. -/
def update_attr_value (rnixParse : String → NixCst) (content attrName oldValue newValue : String) :
    String :=
  match Ast.set rnixParse { content := content, tree := rnixParse content } attrName oldValue
      newValue with
  | .ok a => a.content
  | .error _ => content

/-- The rewrite step of `update_cargo_or_vendor_hash`
(`src/updater/packages/common.rs` lines 63–81), applied to the recipe
file content once a new hash has been extracted from the failed build.
The fallback pattern is the raw literal `r#"{attr_name} = """"#`, whose
content is `<attr> = """` — three quote characters. -/
def update_cargo_or_vendor_hash_rewrite (rnixParse : String → NixCst) (content : String)
    (hash_type new_hash : String) : String :=
  let attr_name := hash_type ++ "Hash"
  match find_attr_value (rnixParse content) attr_name with
  | some old_hash => update_attr_value rnixParse content attr_name old_hash new_hash
  | none =>
    let old_pattern := attr_name ++ " = \"\"\""
    let new_pattern := attr_name ++ " = \"" ++ new_hash ++ "\""
    strReplace content old_pattern new_pattern

/-- `update_cargo_or_vendor_hash` (`src/updater/packages/common.rs`):
the builder outcome is `buildStderr` as in `Ast.update_vendor`; the
result is the file content written back, when any write happens. -/
def update_cargo_or_vendor_hash (rnixParse : String → NixCst) (fileContent : String)
    (hash_type : String) (buildStderr : Option String) : Option String :=
  match buildStderr with
  | none => none
  | some stderr =>
    match extract_hash_from_error stderr with
    | none => none
    | some new_hash => some (update_cargo_or_vendor_hash_rewrite rnixParse fileContent
        hash_type new_hash)

/-! ## Claim-side characterizations of the `set` scan

These definitions restate, in direct explicit-search form, what the
spec claims about `Ast::set`; the theorems below prove the imperative
flag-driven scan equivalent to them. -/

/-- A `NODE_ATTRPATH` child whose first child (the leading identifier)
has text `name`. -/
def attrpathNamed (name : String) (c : NixCst) : Bool :=
  c.kind == NODE_ATTRPATH && (c.firstChild.map NixCst.text) == some name

/-- A `NODE_STRING` child whose quote-stripped text is `old`. -/
def stringValued (old : String) (c : NixCst) : Bool :=
  c.kind == NODE_STRING && extract_string_value c == old

/-- Does the source text of a node carry an interpolation marker
(`${` and `}` both occur)? -/
def hitInterp (n : NixCst) : Bool :=
  strContains n.text interpOpen && strContains n.text interpClose

/-- Index of the first child satisfying `p`. -/
def findIdxNode (p : NixCst → Bool) : List NixCst → Option Nat
  | [] => none
  | c :: cs => if p c then some 0 else (findIdxNode p cs).map (· + 1)

/-- Claim-side scan of one attrpath-value entry, generalized over the
initial `found_attr` flag: once the flag is (or becomes) set, the first
string child carrying the old value is the hit. -/
def hitFrom (name old : String) (flag : Bool) (cs : List NixCst) : Option NixCst :=
  if flag then cs.find? (stringValued old)
  else
    match findIdxNode (attrpathNamed name) cs with
    | none => none
    | some i => (cs.drop (i + 1)).find? (stringValued old)

/-- Claim-side: the string node `set` targets inside one attrpath-value
entry — the first string child with the old value after the name. -/
def avHit (name old : String) (av : NixCst) : Option NixCst :=
  hitFrom name old false av.rawChildren

/-- Claim-side: some entry scanned by `set` holds `old` under `name`. -/
def holdsVal (t : NixCst) (name old : String) : Bool :=
  t.descendants.any (fun av => av.kind == NODE_ATTRPATH_VALUE && (avHit name old av).isSome)

/-- Claim-side: the first matched entry in document order. -/
def firstMatchAv (t : NixCst) (name old : String) : Option NixCst :=
  t.descendants.find? (fun av => av.kind == NODE_ATTRPATH_VALUE && (avHit name old av).isSome)

/-- `Except.isOk` as a plain boolean. -/
def exceptOk {α β : Type} : Except α β → Bool
  | .ok _ => true
  | .error _ => false

/-- The statement relating the flag-driven scan of `set` to the
claim-side two-phase search, for one child list at one offset. -/
def ScanChar (n o : String) (cs : List NixCst) (flag : Bool) (off : Nat) : Prop :=
  (hitFrom n o flag cs = none → scanAvChildren n o cs off flag = .nomatch) ∧
  (∀ hit, hitFrom n o flag cs = some hit →
    (hitInterp hit = true → scanAvChildren n o cs off flag = .interp) ∧
    (hitInterp hit = false → ∃ l1 l2, cs = l1 ++ hit :: l2 ∧
      scanAvChildren n o cs off flag = .found hit (off + (textList l1).length)))

/-! ## Claim-side characterizations for `platforms` -/

/-- Claim-side: is this descendant a recognized container attribute
(`platformData` or `dists`)? -/
def isContainerAv (c : NixCst) : Bool :=
  c.kind == NODE_ATTRPATH_VALUE &&
    (match c.firstChild with
     | some ap => ap.text == "platformData" || ap.text == "dists"
     | none => false)

/-- Claim-side: the immediate child entries of a container — the direct
attrpath-value children of its first attribute-set value. -/
def containerEntries (c : NixCst) : List NixCst :=
  match c.childNodes.find? (fun v => v.kind == NODE_ATTR_SET) with
  | none => []
  | some vset => vset.childNodes

/-- Claim-side: a named attribute with a direct string value (one level
inside the entry's nested set). -/
def innerStringAttr (attr : NixCst) : Bool :=
  attr.kind == NODE_ATTRPATH_VALUE && attr.firstChild.isSome &&
    attr.childNodes.any (fun av => av.kind == NODE_STRING)

/-- Claim-side: a nested attribute set holding at least one string-valued
attribute. -/
def pvHasStringAttr (pv : NixCst) : Bool :=
  pv.kind == NODE_ATTR_SET && pv.childNodes.any innerStringAttr

/-- Claim-side: an immediate child entry qualifies when its own nested
attribute set contains at least one string-valued attribute (descending
exactly one level on each side). -/
def entryQualifies (entry : NixCst) : Bool :=
  entry.kind == NODE_ATTRPATH_VALUE && entry.firstChild.isSome &&
    entry.childNodes.any pvHasStringAttr

/-- Claim-side: the single block a qualifying entry yields. -/
def entryBlock (entry : NixCst) : Option PlatformBlock :=
  if entryQualifies entry then
    entry.firstChild.map (fun pn =>
      { platform_name := trimMatchesQuote pn.text, attributes := platformAttrsOf entry })
  else none

/-! ## Claim-side characterization for the oracle hash extraction -/

/-- Claim-side: the first whitespace-delimited token of a string. -/
def wsToken (s : String) : String :=
  ⟨(s.data.dropWhile rustIsWhitespace).takeWhile (fun c => !rustIsWhitespace c)⟩

/-! ## The flat recipe family

An infinite family of recipe buffers of the canonical shape
`{ n₁ = "v₁"; n₂ = "v₂"; … }`, together with the tree `rnix` derives for
them, used to state the round-trip and composite-update theorems. -/

structure FlatBinding where
  name : String
  value : String
  deriving DecidableEq, Repr

/-- The string node `"v"` (one token; rnix wraps the quote tokens and
content inside `NODE_STRING`, and the editor only ever reads the
concatenated text). -/
def mkString (v : String) : NixCst :=
  .node NODE_STRING [.token ("\"" ++ v ++ "\"")]

def mkIdent (n : String) : NixCst :=
  .node NODE_IDENT [.token n]

def mkAttrpath (n : String) : NixCst :=
  .node NODE_ATTRPATH [mkIdent n]

/-- The attrpath-value node for `n = "v";`. -/
def mkAV (b : FlatBinding) : NixCst :=
  .node NODE_ATTRPATH_VALUE [mkAttrpath b.name, .token " = ", mkString b.value, .token ";"]

/-- The children of the flat attribute set: `{ ` then each binding
followed by a space, then `}`. -/
def flatChildren (bs : List FlatBinding) : List NixCst :=
  .token "\x7b " :: (bs.flatMap fun b => [mkAV b, .token " "]) ++ [.token "\x7d"]

def flatTree (bs : List FlatBinding) : NixCst :=
  .node NODE_ROOT [.node NODE_ATTR_SET (flatChildren bs)]

/-- The source text of one binding (including the separating space). -/
def bindingText (b : FlatBinding) : String :=
  b.name ++ " = \"" ++ b.value ++ "\"; "

def flatBody : List FlatBinding → String
  | [] => ""
  | b :: bs => bindingText b ++ flatBody bs

def flatContent (bs : List FlatBinding) : String :=
  "\x7b " ++ flatBody bs ++ "\x7d"

def flatAst (bs : List FlatBinding) : Ast :=
  { content := flatContent bs, tree := flatTree bs }

/-- First binding with the given name. -/
def flatLookup (bs : List FlatBinding) (n : String) : Option String :=
  (bs.find? (fun b => b.name == n)).map FlatBinding.value

/-- Replace the value of the first binding whose name and value both
match (document order), leaving everything else unchanged. -/
def flatReplaceFirst : List FlatBinding → String → String → String → List FlatBinding
  | [], _, _, _ => []
  | b :: bs, n, o, v =>
    if b.name == n && b.value == o then { name := b.name, value := v } :: bs
    else b :: flatReplaceFirst bs n o v

/-- A string free of quote characters. -/
def noQuote (s : String) : Bool :=
  s.data.all (fun c => c ≠ '"')

/-- A string that does not trip the interpolation guard. -/
def noInterp (s : String) : Bool :=
  !(strContains s interpOpen && strContains s interpClose)

/-- All names and values of a binding list are quote-free. -/
def flatWellFormed (bs : List FlatBinding) : Bool :=
  bs.all (fun b => noQuote b.name && noQuote b.value)

/-- Claim-side list-level semantics of `update_git` on a flat recipe
(§4.1): replace the revision, then the embedded revision substring of
the version when present, then the resolved hash when old and new are
both nonempty. -/
def updateGitFlat (bs : List FlatBinding) (old_rev : Option String)
    (new_rev new_hash : String) (old_hash : Option String) : List FlatBinding :=
  let bs1 :=
    match old_rev with
    | some o =>
      if new_rev ≠ "" then
        let bsr := flatReplaceFirst bs "rev" o new_rev
        match flatLookup bsr "version" with
        | some cv =>
          if strContains cv o then flatReplaceFirst bsr "version" cv (strReplace cv o new_rev)
          else bsr
        | none => bsr
      else bs
    | none => bs
  let oh :=
    match old_hash with
    | some h => h
    | none => (flatLookup bs1 "hash").getD ""
  if oh ≠ "" && new_hash ≠ "" then flatReplaceFirst bs1 "hash" oh new_hash else bs1

/-- The canonical four-binding git recipe
`pname/version/rev/hash` with symbolic values. -/
def c4Bs (p cv r h : String) : List FlatBinding :=
  [{ name := "pname", value := p }, { name := "version", value := cv },
   { name := "rev", value := r }, { name := "hash", value := h }]

/-! ## Concrete fixtures

Hand-built trees mirroring what `rnix::Root::parse` produces on the
concrete buffers involved (token granularity chosen so that every text,
kind and child-node observation the editor makes agrees with the real
CST), together with parse oracles for the re-parse steps. -/

/-- The inner attribute set `{ version = "v"; }`. -/
def ceNestedInner (v : String) : NixCst :=
  .node NODE_ATTR_SET [.token "\x7b ", mkAV { name := "version", value := v }, .token " ",
    .token "\x7d"]

/-- The tree of `{ a = { version = "vin"; }; version = "vout"; }`. -/
def ceNestedTree (vin vout : String) : NixCst :=
  .node NODE_ROOT [.node NODE_ATTR_SET [.token "\x7b ",
    .node NODE_ATTRPATH_VALUE [mkAttrpath "a", .token " = ", ceNestedInner vin, .token ";"],
    .token " ", mkAV { name := "version", value := vout }, .token " ", .token "\x7d"]]

def ceNestedAst : Ast :=
  { content := (ceNestedTree "1.0" "1.0").text, tree := ceNestedTree "1.0" "1.0" }

/-- Parse oracle for the nested-shadowing run: the buffer edited by
`set("version", "1.0", "2.0")` (the inner occurrence is first in
document order) re-parses to the tree with the inner value changed. -/
def ceNestedParse : String → NixCst := fun s =>
  if s = (ceNestedTree "2.0" "1.0").text then ceNestedTree "2.0" "1.0"
  else ceNestedTree "1.0" "1.0"

/-- The string node of `"${rev}"` (quote tokens around an interpolation
node, exactly as rnix nests them). -/
def interpRevString : NixCst :=
  .node NODE_STRING [.token "\"",
    .node NODE_INTERPOL [.token "$\x7b", mkIdent "rev", .token "\x7d"], .token "\""]

/-- The tree of `{ version = "${rev}"; }`. -/
def ceInterpTree : NixCst :=
  .node NODE_ROOT [.node NODE_ATTR_SET [.token "\x7b ",
    .node NODE_ATTRPATH_VALUE [mkAttrpath "version", .token " = ", interpRevString, .token ";"],
    .token " ", .token "\x7d"]]

def ceInterpAst : Ast :=
  { content := ceInterpTree.text, tree := ceInterpTree }

/-- The string node of `"abc-${date}"`. -/
def c4VersionStr : NixCst :=
  .node NODE_STRING [.token "\"abc-",
    .node NODE_INTERPOL [.token "$\x7b", mkIdent "date", .token "\x7d"], .token "\""]

/-- The tree of `{ rev = "r"; version = "abc-${date}"; hash = "h"; }`. -/
def c4Tree (r h : String) : NixCst :=
  .node NODE_ROOT [.node NODE_ATTR_SET [.token "\x7b ",
    mkAV { name := "rev", value := r }, .token " ",
    .node NODE_ATTRPATH_VALUE [mkAttrpath "version", .token " = ", c4VersionStr, .token ";"],
    .token " ",
    mkAV { name := "hash", value := h }, .token " ", .token "\x7d"]]

def c4Ast : Ast :=
  { content := (c4Tree "abc" "h").text, tree := c4Tree "abc" "h" }

/-- Parse oracle for the interpolated-version `update_git` run. -/
def c4Parse : String → NixCst := fun s =>
  if s = (c4Tree "def" "h").text then c4Tree "def" "h"
  else if s = (c4Tree "def" "sha256-NEW=").text then c4Tree "def" "sha256-NEW="
  else c4Tree "abc" "h"

/-- The recipe of the git-strategy counterexample. -/
def c8Bindings : List FlatBinding :=
  [{ name := "pname", value := "x" }, { name := "version", value := "1.0" },
   { name := "rev", value := "abc" }, { name := "hash", value := "sha256-OLD" }]

/-- The same recipe after the hash rewrite. -/
def c8BindingsNew : List FlatBinding :=
  [{ name := "pname", value := "x" }, { name := "version", value := "1.0" },
   { name := "rev", value := "abc" }, { name := "hash", value := "sha256-NEW" }]

def c8Parse : String → NixCst := fun s =>
  if s = flatContent c8BindingsNew then flatTree c8BindingsNew else flatTree c8Bindings

def c8Pkg : GitPkg :=
  { nix_hash := "sha256-OLD", tree := flatTree c8Bindings, result := UpdateResultS.empty }

/-- Parse oracle used by fixtures over flat one-binding recipes. -/
def c5Parse : String → NixCst := fun s =>
  if s = flatContent [{ name := "cargoHash", value := "sha256-NEW=" }] then
    flatTree [{ name := "cargoHash", value := "sha256-NEW=" }]
  else flatTree [{ name := "cargoHash", value := "" }]

/-- The platform container of spec §8:
`platformData = { linux = {…}; mac = {…}; };` inside a recipe. -/
def c7Entry (nm f h : String) : NixCst :=
  .node NODE_ATTRPATH_VALUE [mkAttrpath nm, .token " = ",
    .node NODE_ATTR_SET [.token "\x7b ", mkAV { name := "filename", value := f }, .token " ",
      mkAV { name := "hash", value := h }, .token " ", .token "\x7d"], .token ";"]

def c7Tree : NixCst :=
  .node NODE_ROOT [.node NODE_ATTR_SET [.token "\x7b ",
    .node NODE_ATTRPATH_VALUE [mkAttrpath "platformData", .token " = ",
      .node NODE_ATTR_SET [.token "\x7b ",
        c7Entry "linux" "foo-linux.whl" "sha256-OLD=", .token " ",
        c7Entry "mac" "foo-mac.whl" "sha256-OLD2=", .token " ", .token "\x7d"],
      .token ";"], .token " ", .token "\x7d"]]

/-- A parse oracle for paths on which the re-parsed tree is never
consulted (error paths and interpolation no-ops). -/
def dummyParse : String → NixCst := fun _ => NixCst.token ""

/-- Spec §8 scenario recipe `pname/version/hash` (round-trip witness). -/
def c1WitPre : List FlatBinding := [{ name := "pname", value := "foo" }]

def c1WitPost : List FlatBinding := [{ name := "hash", value := "sha256-AAAA=" }]

def c1WitBs : List FlatBinding :=
  [{ name := "pname", value := "foo" }, { name := "version", value := "1.0.0" },
   { name := "hash", value := "sha256-AAAA=" }]

def c1WitBsNew : List FlatBinding :=
  [{ name := "pname", value := "foo" }, { name := "version", value := "1.2.0" },
   { name := "hash", value := "sha256-AAAA=" }]

def c1WitParse : String → NixCst := fun s =>
  if s = flatContent c1WitBsNew then flatTree c1WitBsNew else flatTree c1WitBs

/-- One-binding recipe for the `set` characterization witness. -/
def c2WitBs : List FlatBinding := [{ name := "version", value := "1.0" }]

def c2WitBsNew : List FlatBinding := [{ name := "version", value := "2.0" }]

def c2WitParse : String → NixCst := fun s =>
  if s = flatContent c2WitBsNew then flatTree c2WitBsNew else flatTree c2WitBs

/-- The three states of the `update_git` witness run
(`rev` abc→def, `version` 1.0-abc→1.0-def, `hash` A→B). -/
def c4WitBs0 : List FlatBinding :=
  [{ name := "pname", value := "foo" }, { name := "version", value := "1.0-abc" },
   { name := "rev", value := "abc" }, { name := "hash", value := "sha256-A" }]

def c4WitBs1 : List FlatBinding :=
  [{ name := "pname", value := "foo" }, { name := "version", value := "1.0-abc" },
   { name := "rev", value := "def" }, { name := "hash", value := "sha256-A" }]

def c4WitBs2 : List FlatBinding :=
  [{ name := "pname", value := "foo" }, { name := "version", value := "1.0-def" },
   { name := "rev", value := "def" }, { name := "hash", value := "sha256-A" }]

def c4WitBs3 : List FlatBinding :=
  [{ name := "pname", value := "foo" }, { name := "version", value := "1.0-def" },
   { name := "rev", value := "def" }, { name := "hash", value := "sha256-B" }]

def c4WitParse : String → NixCst := fun s =>
  if s = flatContent c4WitBs1 then flatTree c4WitBs1
  else if s = flatContent c4WitBs2 then flatTree c4WitBs2
  else if s = flatContent c4WitBs3 then flatTree c4WitBs3
  else flatTree c4WitBs0

/-! # Theorems -/

theorem strData_append (s t : String) : (s ++ t).data = s.data ++ t.data := rfl

theorem strLength_data (s : String) : s.length = s.data.length := rfl

theorem strExt {s t : String} (h : s.data = t.data) : s = t := by
  cases s; cases t; simp at h; rw [h]

/-! ## Lemmas for the oracle extraction (C6) -/

theorem listFindIdx_none {p : Char → Bool} : ∀ {l : List Char}, listFindIdx p l = none →
    l.takeWhile (fun c => !p c) = l := by
  intro l
  induction l with
  | nil => intro _; rfl
  | cons c cs ih =>
    intro h
    by_cases hp : p c
    · simp [listFindIdx, hp] at h
    · simp only [listFindIdx, hp, if_false, Bool.false_eq_true, Option.map_eq_none'] at h
      simp [List.takeWhile_cons, hp, ih h]

theorem listFindIdx_some {p : Char → Bool} : ∀ {l : List Char} {e : Nat},
    listFindIdx p l = some e → l.take e = l.takeWhile (fun c => !p c) := by
  intro l
  induction l with
  | nil => intro e h; simp [listFindIdx] at h
  | cons c cs ih =>
    intro e h
    by_cases hp : p c
    · simp [listFindIdx, hp] at h
      simp [← h, List.takeWhile_cons, hp]
    · simp only [listFindIdx, hp, if_false, Bool.false_eq_true, Option.map_eq_some'] at h
      rcases h with ⟨e0, he0, rfl⟩
      simp [List.takeWhile_cons, hp, List.take_succ_cons, ih he0]

theorem takeWhile_append_stop {q : Char → Bool} : ∀ (A B : List Char),
    (∀ b ∈ B, q b = false) → (A ++ B).takeWhile q = A.takeWhile q := by
  intro A B hB
  induction A with
  | nil =>
    cases B with
    | nil => rfl
    | cons b bs => simp [List.takeWhile_cons, hB b (by simp)]
  | cons a A ih =>
    by_cases hq : q a <;> simp [List.takeWhile_cons, hq, ih]

theorem takeWhile_reverse_dropWhile (p : Char → Bool) (l : List Char) :
    ((l.reverse.dropWhile p).reverse).takeWhile (fun c => !p c) =
      l.takeWhile (fun c => !p c) := by
  have hdec : l = (l.reverse.dropWhile p).reverse ++ (l.reverse.takeWhile p).reverse := by
    have h1 : l.reverse.takeWhile p ++ l.reverse.dropWhile p = l.reverse :=
      List.takeWhile_append_dropWhile p l.reverse
    calc l = l.reverse.reverse := (List.reverse_reverse l).symm
      _ = (l.reverse.takeWhile p ++ l.reverse.dropWhile p).reverse := by rw [h1]
      _ = (l.reverse.dropWhile p).reverse ++ (l.reverse.takeWhile p).reverse := by
          rw [List.reverse_append]
  conv_rhs => rw [hdec]
  refine (takeWhile_append_stop _ _ ?_).symm
  intro b hb
  have hbm : b ∈ l.reverse.takeWhile p := List.mem_reverse.mp hb
  have := List.mem_takeWhile_imp hbm
  simp [this]

/-- C6 (amended): `extract_hash_from_error` in `builder.rs` yields
exactly the whitespace-delimited token immediately after the first
`got:` marker, for every diagnostic text containing the marker; and both
the inline scan of `update_vendor` and `extract_hash_from_error` yield
exactly `sha256-ABC123=` on the spec example (the inline scan, however,
keeps everything after the marker on the line — see the
counterexample). -/
theorem c6_oracle_extraction :
    (∀ (s : String) (pos : Nat), strFindSub s "got:" = some pos →
        extract_hash_from_error s = some (wsToken (strDrop s (pos + 4)))) ∧
    vendorScanHash "x\n  got: sha256-ABC123=\n" = some "sha256-ABC123=" ∧
    extract_hash_from_error "x\n  got: sha256-ABC123=\n" = some "sha256-ABC123=" := by
  refine ⟨?_, by decide, by decide⟩
  intro s pos h
  have hgoal : ((rustTrim (strDrop s (pos + 4))).data.takeWhile (fun c => !rustIsWhitespace c)) =
      (wsToken (strDrop s (pos + 4))).data :=
    takeWhile_reverse_dropWhile rustIsWhitespace
      ((strDrop s (pos + 4)).data.dropWhile rustIsWhitespace)
  unfold extract_hash_from_error
  rw [h]
  dsimp only
  cases hf : listFindIdx rustIsWhitespace (rustTrim (strDrop s (pos + 4))).data with
  | none =>
    refine congrArg some (strExt ?_)
    rw [← hgoal, listFindIdx_none hf]
  | some e =>
    refine congrArg some (strExt ?_)
    show (rustTrim (strDrop s (pos + 4))).data.take e = _
    rw [listFindIdx_some hf, hgoal]

/-- C6 (counterexample): on a diagnostic line `got: abc def`, the inline
extraction of `Ast::update_vendor` yields the whole trimmed remainder
`abc def`, not the whitespace-delimited token `abc` the claim
requires. -/
theorem c6_counterexample :
    vendorScanHash "error:\n  got: abc def\n" = some "abc def" ∧
    wsToken "abc def" = "abc" ∧ ("abc def" : String) ≠ "abc" := by decide

/-- C6 (witness): the universal half of the amended theorem applied to a
concrete diagnostic. -/
theorem c6_witness :
    extract_hash_from_error "a got: b c" = some (wsToken (strDrop "a got: b c" (2 + 4))) :=
  c6_oracle_extraction.1 "a got: b c" 2 (by decide)

/-! ## Lemmas for the result record (C9) -/

theorem updated_mem_foldl (ops : List ResultOp) : ∀ r : UpdateResultS,
    UpdateStatus.Updated ∈ (ops.foldl UpdateResultS.apply r).status →
    UpdateStatus.Updated ∈ r.status ∨ ResultOp.success ∈ ops := by
  induction ops with
  | nil => intro r h; exact .inl h
  | cons op ops ih =>
    intro r h
    rcases ih _ h with h1 | h2
    · cases op with
      | failed msg =>
        simp [UpdateResultS.apply] at h1
      | message msg => exact .inl h1
      | success => exact .inr (List.mem_cons_self _ _)
      | up_to_date =>
        simp only [UpdateResultS.apply, Finset.mem_insert] at h1
        rcases h1 with h1 | h1
        · exact absurd h1 (by decide)
        · exact .inl h1
      | version o n =>
        simp only [UpdateResultS.apply] at h1
        split at h1 <;> exact .inl h1
      | git_commit o n => exact .inl h1
    · exact .inr (List.mem_cons_of_mem _ h2)

/-- C9 (amended): `failed` itself erases all other flags, so a result on
which `failed` was the last status-changing call carries exactly
`{Failed}`; `Updated` can only ever be introduced by `success` (the
operation the strategies call right after a successful write); and a
result holding `Failed` displays the failure mark for every queried
flag.  (The unrestricted claim is false: `success` invoked after
`failed` makes `Failed` and `Updated` coexist — see the
counterexample.) -/
theorem c9_result_invariants :
    (∀ (r : UpdateResultS) (msg : String),
        (r.apply (.failed msg)).status = {UpdateStatus.Failed}) ∧
    (∀ ops : List ResultOp,
        UpdateStatus.Updated ∈ (UpdateResultS.ofOps ops).status → ResultOp.success ∈ ops) ∧
    (∀ (r : UpdateResultS) (check : UpdateStatus),
        UpdateStatus.Failed ∈ r.status → r.display check = .cross) := by
  refine ⟨fun r msg => rfl, fun ops h => ?_, fun r check h => ?_⟩
  · rcases updated_mem_foldl ops UpdateResultS.empty h with h1 | h2
    · simp [UpdateResultS.empty] at h1
    · exact h2
  · simp [UpdateResultS.display, h]

/-- C9 (counterexample): the mutation operations, as exposed, allow
`success` after `failed`, after which `Failed` coexists with `Updated`
in the same status set — refuting the exclusivity invariant as
stated. -/
theorem c9_counterexample :
    UpdateStatus.Failed ∈ (UpdateResultS.ofOps [.failed "m", .success]).status ∧
    UpdateStatus.Updated ∈ (UpdateResultS.ofOps [.failed "m", .success]).status := by decide

/-- C9 (witness): the amended invariants applied at concrete inputs. -/
theorem c9_witness :
    (UpdateResultS.empty.apply (.failed "io error")).status = {UpdateStatus.Failed} ∧
    ResultOp.success ∈ ([ResultOp.success] : List ResultOp) ∧
    (UpdateResultS.empty.apply (.failed "io error")).display UpdateStatus.Built =
      StatusMark.cross :=
  ⟨c9_result_invariants.1 _ _,
   c9_result_invariants.2.1 [ResultOp.success] (by decide),
   c9_result_invariants.2.2 _ _ (by decide)⟩

/-- C10 (amended): at the end of a batch run the shared build-log
directory is removed iff the batch is nonempty, not every recipe is
`UpToDate` (that case returns early, before the cleanup), and every
recipe carries `Built`.  In particular a non-`Built` recipe always
preserves the directory, but "every recipe `Built`" alone does not force
removal — see the counterexample. -/
theorem c10_cleanup_gate : ∀ statuses : List (Finset UpdateStatus),
    cleanupRemovesLogs statuses =
      (!statuses.isEmpty &&
        !statuses.all (fun s => decide (UpdateStatus.UpToDate ∈ s)) &&
        statuses.all (fun s => decide (UpdateStatus.Built ∈ s))) := by
  intro statuses
  unfold cleanupRemovesLogs
  by_cases h1 : statuses.isEmpty <;>
    by_cases h2 : statuses.all (fun s => decide (UpdateStatus.UpToDate ∈ s)) <;>
      simp [h1, h2]

/-- C10 (counterexample): a batch whose single recipe is both `UpToDate`
and `Built` (an up-to-date recipe force-built successfully): every
recipe reached `Built`, yet the run returns at the all-up-to-date early
exit and the log directory is retained — refuting the "removed if every
recipe reached Built" direction. -/
theorem c10_counterexample :
    cleanupRemovesLogs [{UpdateStatus.UpToDate, UpdateStatus.Built}] = false ∧
    ([({UpdateStatus.UpToDate, UpdateStatus.Built} : Finset UpdateStatus)].all
      (fun s => decide (UpdateStatus.Built ∈ s))) = true := by decide

/-- C5 (code bug): on a recipe whose vendored-dependency hash stands
empty (`{ cargoHash = ""; }`) — the very precondition the spec imposes
before the oracle loop — a failed build with diagnostic `got: sha256-NEW=`
leaves the buffer unchanged: the fallback pattern of
`update_cargo_or_vendor_hash` is the raw literal `cargoHash = """`
(three quotes, from `r#"{attr_name} = """"#`), which never occurs in an
empty assignment, so the replace is a no-op (first conjunct); the
two-quote pattern the spec and the adjacent comment intend would have
produced the updated assignment (second conjunct); and the
`Ast::update_vendor` variant substitutes a structural `set` with an
empty old value for the raw replace, which fails with `NotFound` when
the attribute is absent instead of falling back (third conjunct). -/
theorem c5_code_bug_eval :
    update_cargo_or_vendor_hash c5Parse (flatContent [{ name := "cargoHash", value := "" }])
        "cargo" (some "error:\n  got: sha256-NEW=\n") =
      some (flatContent [{ name := "cargoHash", value := "" }]) ∧
    strReplace (flatContent [{ name := "cargoHash", value := "" }]) "cargoHash = \"\""
        "cargoHash = \"sha256-NEW=\"" =
      flatContent [{ name := "cargoHash", value := "sha256-NEW=" }] ∧
    exceptOk (Ast.update_vendor c5Parse (flatAst [{ name := "pname", value := "x" }]) "cargo"
        (some "got: sha256-NEW=")) = false := by decide

/-! ## Lemmas for platform extraction (C7) -/

theorem hmInsert_ne_nil (m : List (String × String)) (k v : String) : hmInsert m k v ≠ [] := by
  unfold hmInsert
  by_cases h : m.any (fun p => p.1 == k) = true
  · rw [if_pos h]
    cases m with
    | nil => simp at h
    | cons x xs => simp
  · rw [if_neg h]
    simp

theorem find?_isSome_eq_any {α : Type} (p : α → Bool) (l : List α) :
    (l.find? p).isSome = l.any p := by
  induction l with
  | nil => rfl
  | cons x xs ih => by_cases h : p x <;> simp [List.find?_cons, h, ih]

theorem all_not_eq_not_any {α : Type} (p : α → Bool) (l : List α) :
    (l.all fun x => !p x) = !l.any p := by
  induction l with
  | nil => rfl
  | cons x xs ih => by_cases h : p x <;> simp [h, ih]

theorem platformAttrsOf_eq (entry : NixCst) :
    platformAttrsOf entry =
      entry.childNodes.foldl (fun acc pv =>
        if pv.kind = NODE_ATTR_SET then pv.childNodes.foldl innerBody acc else acc) [] := rfl

theorem innerBody_of_not {acc : List (String × String)} {attr : NixCst}
    (h : innerStringAttr attr = false) : innerBody acc attr = acc := by
  unfold innerBody
  by_cases hk : attr.kind = NODE_ATTRPATH_VALUE
  · cases hfc : attr.firstChild with
    | none => simp [hk, hfc]
    | some ann =>
      cases hfs : attr.childNodes.find? (fun av => av.kind == NODE_STRING) with
      | none => simp [hk, hfc, hfs]
      | some sv =>
        exfalso
        have hany : attr.childNodes.any (fun av => av.kind == NODE_STRING) = true := by
          rw [← find?_isSome_eq_any, hfs]
          rfl
        unfold innerStringAttr at h
        simp [hk, hfc, hany] at h
  · simp [hk]

theorem innerBody_of_yes {acc : List (String × String)} {attr : NixCst}
    (h : innerStringAttr attr = true) : innerBody acc attr ≠ [] := by
  unfold innerStringAttr at h
  rw [Bool.and_eq_true, Bool.and_eq_true] at h
  obtain ⟨⟨h1, h2⟩, h3⟩ := h
  have hk : attr.kind = NODE_ATTRPATH_VALUE := by simpa using h1
  cases hfc : attr.firstChild with
  | none => rw [hfc] at h2; simp at h2
  | some ann =>
    have hfs : (attr.childNodes.find? (fun av => av.kind == NODE_STRING)).isSome = true := by
      rw [find?_isSome_eq_any]
      exact h3
    cases hfs2 : attr.childNodes.find? (fun av => av.kind == NODE_STRING) with
    | none => rw [hfs2] at hfs; simp at hfs
    | some sv =>
      unfold innerBody
      simp only [hk, if_true, hfc, hfs2]
      exact hmInsert_ne_nil _ _ _

theorem innerFold_preserve : ∀ (L : List NixCst) (acc : List (String × String)),
    acc ≠ [] → L.foldl innerBody acc ≠ [] := by
  intro L
  induction L with
  | nil => intro acc h; simpa using h
  | cons attr L ih =>
    intro acc h
    simp only [List.foldl_cons]
    by_cases hi : innerStringAttr attr = true
    · exact ih _ (innerBody_of_yes hi)
    · rw [innerBody_of_not (by simpa using hi)]
      exact ih _ h

theorem innerFold_empty_iff : ∀ (L : List NixCst) (acc : List (String × String)),
    L.foldl innerBody acc = [] ↔ (acc = [] ∧ L.all (fun attr => !innerStringAttr attr) = true) := by
  intro L
  induction L with
  | nil => intro acc; simp
  | cons attr L ih =>
    intro acc
    simp only [List.foldl_cons, List.all_cons]
    by_cases hi : innerStringAttr attr = true
    · constructor
      · intro h
        exact absurd h (innerFold_preserve _ _ (innerBody_of_yes hi))
      · intro h
        rw [hi] at h
        simp at h
    · rw [innerBody_of_not (by simpa using hi)]
      rw [ih]
      simp [hi]

theorem innerFold_id : ∀ (L : List NixCst) (acc : List (String × String)),
    L.all (fun attr => !innerStringAttr attr) = true → L.foldl innerBody acc = acc := by
  intro L
  induction L with
  | nil => intro acc _; rfl
  | cons attr L ih =>
    intro acc h
    simp only [List.all_cons, Bool.and_eq_true] at h
    simp only [List.foldl_cons]
    rw [innerBody_of_not (by simpa using h.1)]
    exact ih _ h.2

/-- The body of the outer loop of `platformAttrsOf`. -/
theorem outerFold_preserve : ∀ (L : List NixCst) (acc : List (String × String)),
    acc ≠ [] →
    L.foldl (fun acc pv => if pv.kind = NODE_ATTR_SET then pv.childNodes.foldl innerBody acc
      else acc) acc ≠ [] := by
  intro L
  induction L with
  | nil => intro acc h; simpa using h
  | cons pv L ih =>
    intro acc h
    simp only [List.foldl_cons]
    by_cases hk : pv.kind = NODE_ATTR_SET
    · simp only [hk, if_pos]
      exact ih _ (innerFold_preserve _ _ h)
    · simp only [hk, if_neg, if_false]
      exact ih _ h

theorem outerFold_empty_iff : ∀ (L : List NixCst) (acc : List (String × String)),
    (L.foldl (fun acc pv => if pv.kind = NODE_ATTR_SET then pv.childNodes.foldl innerBody acc
      else acc) acc = []) ↔ (acc = [] ∧ L.all (fun pv => !pvHasStringAttr pv) = true) := by
  intro L
  induction L with
  | nil => intro acc; simp
  | cons pv L ih =>
    intro acc
    simp only [List.foldl_cons, List.all_cons]
    by_cases hk : pv.kind = NODE_ATTR_SET
    · simp only [hk, if_pos]
      by_cases hany : pv.childNodes.any innerStringAttr = true
      · constructor
        · intro h
          have hne : pv.childNodes.foldl innerBody acc ≠ [] := by
            intro he
            rw [innerFold_empty_iff] at he
            have : pv.childNodes.all (fun attr => !innerStringAttr attr) = true := he.2
            rw [List.all_eq_not_any_not] at this
            simp only [Bool.not_not] at this
            simp [hany] at this
          exact absurd h (outerFold_preserve _ _ hne)
        · intro h
          have : pvHasStringAttr pv = true := by
            unfold pvHasStringAttr
            simp [hk, hany]
          rw [this] at h
          simp at h
      · have hall : pv.childNodes.all (fun attr => !innerStringAttr attr) = true := by
          rw [List.all_eq_not_any_not]
          simp only [Bool.not_not]
          simpa using hany
        rw [innerFold_id _ _ hall, ih]
        have : pvHasStringAttr pv = false := by
          unfold pvHasStringAttr
          simp [hk]
          simpa using hany
        simp [this]
    · simp only [hk, if_neg, if_false]
      rw [ih]
      have : pvHasStringAttr pv = false := by
        unfold pvHasStringAttr
        simp [hk]
      simp [this]

/-- The attribute collection is empty exactly when no nested attribute
set of the entry holds a string-valued attribute. -/
theorem platformAttrsOf_empty_iff (entry : NixCst) :
    platformAttrsOf entry = [] ↔ entry.childNodes.all (fun pv => !pvHasStringAttr pv) = true := by
  rw [platformAttrsOf_eq, outerFold_empty_iff]
  simp

theorem platforms_body_eq (blocks : List PlatformBlock) (c : NixCst) :
    (if c.kind = NODE_ATTRPATH_VALUE then
      match c.firstChild with
      | some ap =>
        if ap.text == "platformData" || ap.text == "dists" then
          blocks ++ platformsOfContainer c
        else blocks
      | none => blocks
    else blocks) =
      (if isContainerAv c then blocks ++ platformsOfContainer c else blocks) := by
  unfold isContainerAv
  by_cases hk : c.kind = NODE_ATTRPATH_VALUE
  · cases hfc : c.firstChild with
    | none => simp [hk, hfc]
    | some ap =>
      by_cases hn : (ap.text == "platformData" || ap.text == "dists") = true
      · simp [hk, hfc, hn]
      · simp [hk, hfc, hn]
  · simp [hk]

theorem platforms_foldl : ∀ (L : List NixCst) (acc : List PlatformBlock),
    (L.foldl (fun blocks c => if isContainerAv c then blocks ++ platformsOfContainer c
      else blocks) acc) = acc ++ (L.filter isContainerAv).flatMap platformsOfContainer := by
  intro L
  induction L with
  | nil => intro acc; simp
  | cons c L ih =>
    intro acc
    simp only [List.foldl_cons, List.filter_cons]
    by_cases h : isContainerAv c = true
    · simp [h, ih, List.append_assoc]
    · simp only [Bool.not_eq_true] at h
      simp [h, ih]

theorem entryBody_eq (blocks : List PlatformBlock) (entry : NixCst) :
    (if entry.kind = NODE_ATTRPATH_VALUE then
      match entry.firstChild with
      | some pn =>
        if (platformAttrsOf entry).isEmpty then blocks
        else blocks ++ [{ platform_name := trimMatchesQuote pn.text,
                          attributes := platformAttrsOf entry }]
      | none => blocks
    else blocks) =
      blocks ++ (entryBlock entry).toList := by
  unfold entryBlock entryQualifies
  by_cases hk : entry.kind = NODE_ATTRPATH_VALUE
  · cases hfc : entry.firstChild with
    | none => simp [hk, hfc]
    | some pn =>
      by_cases he : platformAttrsOf entry = []
      · have hall := (platformAttrsOf_empty_iff entry).mp he
        have hnone : entry.childNodes.any pvHasStringAttr = false := by
          rw [all_not_eq_not_any] at hall
          simpa using hall
        simp [hk, hfc, he, hnone, List.isEmpty_iff]
      · have hq : entry.childNodes.any pvHasStringAttr = true := by
          by_contra hq
          simp only [Bool.not_eq_true] at hq
          have : entry.childNodes.all (fun pv => !pvHasStringAttr pv) = true := by
            rw [all_not_eq_not_any, hq]
            rfl
          exact he ((platformAttrsOf_empty_iff entry).mpr this)
        simp [hk, hfc, hq, List.isEmpty_iff, he]
  · simp [hk]

theorem entries_foldl : ∀ (L : List NixCst) (acc : List PlatformBlock),
    L.foldl (fun blocks entry =>
      if entry.kind = NODE_ATTRPATH_VALUE then
        match entry.firstChild with
        | some pn =>
          if (platformAttrsOf entry).isEmpty then blocks
          else blocks ++ [{ platform_name := trimMatchesQuote pn.text,
                            attributes := platformAttrsOf entry }]
        | none => blocks
      else blocks) acc = acc ++ L.filterMap entryBlock := by
  intro L
  induction L with
  | nil => intro acc; simp
  | cons entry L ih =>
    intro acc
    simp only [List.foldl_cons, List.filterMap_cons]
    rw [entryBody_eq, ih]
    cases hb : entryBlock entry with
    | none => simp
    | some b => simp [List.append_assoc]

theorem platformsOfContainer_eq (c : NixCst) :
    platformsOfContainer c = (containerEntries c).filterMap entryBlock := by
  unfold platformsOfContainer containerEntries
  cases hv : c.childNodes.find? (fun v => v.kind == NODE_ATTR_SET) with
  | none => rfl
  | some vset =>
    dsimp only
    rw [entries_foldl]
    simp

/-- C7: `platforms()` yields exactly one block per immediate child entry
of a `platformData`/`dists` container whose own nested attribute set
holds at least one string-valued attribute (one level of nesting on each
side, expressed by the claim-side `containerEntries`/`entryBlock`
search), and a returned block never has an empty attribute map. -/
theorem c7_platform_extraction : ∀ a : Ast,
    a.platforms = (a.tree.descendants.filter isContainerAv).flatMap
        (fun c => (containerEntries c).filterMap entryBlock) ∧
    ∀ b ∈ a.platforms, b.attributes ≠ [] := by
  intro a
  have hbody : a.platforms = a.tree.descendants.foldl
      (fun blocks c => if isContainerAv c then blocks ++ platformsOfContainer c else blocks)
      [] := by
    unfold Ast.platforms
    congr 1
    funext blocks c
    exact platforms_body_eq blocks c
  have h2 : a.platforms = (a.tree.descendants.filter isContainerAv).flatMap
      (fun c => (containerEntries c).filterMap entryBlock) := by
    rw [hbody, platforms_foldl]
    rw [show platformsOfContainer = fun c => (containerEntries c).filterMap entryBlock from
      funext platformsOfContainer_eq]
    simp
  refine ⟨h2, ?_⟩
  intro b hb
  rw [h2] at hb
  rcases List.mem_flatMap.mp hb with ⟨c, hc, hbc⟩
  rcases List.mem_filterMap.mp hbc with ⟨entry, hentry, hblock⟩
  unfold entryBlock at hblock
  by_cases hq : entryQualifies entry = true
  · rw [if_pos hq] at hblock
    rcases Option.map_eq_some'.mp hblock with ⟨pn, hpn, hbeq⟩
    rw [← hbeq]
    show platformAttrsOf entry ≠ []
    intro he
    have hall := (platformAttrsOf_empty_iff entry).mp he
    rw [all_not_eq_not_any] at hall
    simp only [entryQualifies, Bool.and_eq_true] at hq
    rcases hq with ⟨⟨_, _⟩, h3⟩
    rw [h3] at hall
    simp at hall
  · rw [if_neg hq] at hblock
    simp at hblock

/-- C7 (witness): the spec §8 container with `linux`/`mac` entries:
the characterization applied at the concrete tree, two blocks, both
nonempty. -/
theorem c7_witness :
    ({ content := c7Tree.text, tree := c7Tree } : Ast).platforms =
      ((c7Tree.descendants.filter isContainerAv).flatMap
        (fun c => (containerEntries c).filterMap entryBlock)) ∧
    ∀ b ∈ ({ content := c7Tree.text, tree := c7Tree } : Ast).platforms, b.attributes ≠ [] :=
  c7_platform_extraction { content := c7Tree.text, tree := c7Tree }

/-! ## Characterization of the `set` scan (C2, C3) -/

theorem strEmpty_append (s : String) : "" ++ s = s :=
  strExt (by simp [strData_append])

theorem strAppend_empty (s : String) : s ++ "" = s :=
  strExt (by simp [strData_append])

theorem textList_append : ∀ (l1 l2 : List NixCst),
    textList (l1 ++ l2) = textList l1 ++ textList l2 := by
  intro l1 l2
  induction l1 with
  | nil => simp [textList, strEmpty_append]
  | cons c l1 ih => simp [textList, ih, String.append_assoc]


theorem hitFrom_true_eq (n o : String) (cs : List NixCst) :
    hitFrom n o true cs = cs.find? (stringValued o) := by
  unfold hitFrom
  simp

theorem hitFrom_false_eq (n o : String) (cs : List NixCst) :
    hitFrom n o false cs =
      match findIdxNode (attrpathNamed n) cs with
      | none => none
      | some i => (cs.drop (i + 1)).find? (stringValued o) := by
  unfold hitFrom
  simp

theorem hitFrom_cons_true (n o : String) (c : NixCst) (cs : List NixCst) :
    hitFrom n o true (c :: cs) = if stringValued o c then some c else hitFrom n o true cs := by
  rw [hitFrom_true_eq, hitFrom_true_eq, List.find?_cons]
  cases hs : stringValued o c <;> simp [hs]

theorem hitFrom_cons_false (n o : String) (c : NixCst) (cs : List NixCst) :
    hitFrom n o false (c :: cs) =
      if attrpathNamed n c then hitFrom n o true cs else hitFrom n o false cs := by
  by_cases ha : attrpathNamed n c = true
  · rw [if_pos ha, hitFrom_false_eq, hitFrom_true_eq]
    simp [findIdxNode, ha]
  · rw [if_neg ha, hitFrom_false_eq, hitFrom_false_eq]
    simp only [findIdxNode, ha, if_false, Bool.false_eq_true]
    cases hf : findIdxNode (attrpathNamed n) cs with
    | none => simp
    | some i => simp [List.drop_succ_cons]

theorem hitFrom_cons_trans {n o : String} {c : NixCst} (cs : List NixCst)
    (hs : stringValued o c = false) (ha : attrpathNamed n c = false) :
    ∀ flag, hitFrom n o flag (c :: cs) = hitFrom n o flag cs := by
  intro flag
  cases flag
  · rw [hitFrom_cons_false, ha]
    simp
  · rw [hitFrom_cons_true, hs]
    simp

theorem char_step_flag {n o : String} {c : NixCst} {cs : List NixCst} {flag : Bool} {off : Nat}
    (fl2 : Bool) (ihc : ScanChar n o cs fl2 (off + c.text.length))
    (hhf : hitFrom n o flag (c :: cs) = hitFrom n o fl2 cs)
    (hsc : scanAvChildren n o (c :: cs) off flag =
      scanAvChildren n o cs (off + c.text.length) fl2) :
    ScanChar n o (c :: cs) flag off := by
  constructor
  · intro h
    rw [hsc]
    exact ihc.1 (hhf ▸ h)
  · intro hit h
    rw [hhf] at h
    refine ⟨fun hi => by rw [hsc]; exact (ihc.2 hit h).1 hi, fun hi => ?_⟩
    obtain ⟨l1, l2, hdec, hfound⟩ := (ihc.2 hit h).2 hi
    refine ⟨c :: l1, l2, by rw [hdec, List.cons_append], ?_⟩
    rw [hsc, hfound]
    have harith : off + c.text.length + (textList l1).length = off + (textList (c :: l1)).length := by
      show _ = off + (c.text ++ textList l1).length
      rw [String.length_append]
      omega
    rw [harith]

theorem attrpathNamed_node_ne {n : String} {k : SyntaxKind} (hk : k ≠ NODE_ATTRPATH)
    (kids : List NixCst) : attrpathNamed n (.node k kids) = false := by
  simp [attrpathNamed, NixCst.kind, hk]

theorem stringValued_node_ne {o : String} {k : SyntaxKind} (hk : k ≠ NODE_STRING)
    (kids : List NixCst) : stringValued o (.node k kids) = false := by
  simp [stringValued, NixCst.kind, hk]

theorem scan_attrpath_step (n o : String) (kids : List NixCst) (cs : List NixCst) (off : Nat)
    (flag : Bool) :
    scanAvChildren n o (.node NODE_ATTRPATH kids :: cs) off flag =
      scanAvChildren n o cs (off + (NixCst.node NODE_ATTRPATH kids).text.length)
        (flag || ((NixCst.node NODE_ATTRPATH kids).firstChild.map NixCst.text == some n)) := rfl

theorem scan_string_step (n o : String) (kids : List NixCst) (cs : List NixCst) (off : Nat)
    (flag : Bool) :
    scanAvChildren n o (.node NODE_STRING kids :: cs) off flag =
      (if flag && (extract_string_value (.node NODE_STRING kids) == o) then
        (if strContains (NixCst.node NODE_STRING kids).text interpOpen &&
            strContains (NixCst.node NODE_STRING kids).text interpClose then .interp
         else .found (.node NODE_STRING kids) off)
       else scanAvChildren n o cs (off + (NixCst.node NODE_STRING kids).text.length) flag) := rfl

theorem scan_char (n o : String) : ∀ (cs : List NixCst) (flag : Bool) (off : Nat),
    ScanChar n o cs flag off := by
  intro cs
  induction cs with
  | nil =>
    intro flag off
    constructor
    · intro _
      rfl
    · intro hit h
      cases flag <;> simp [hitFrom, findIdxNode] at h
  | cons c cs ih =>
    intro flag off
    cases c with
    | token s =>
      exact char_step_flag flag (ih flag _) (hitFrom_cons_trans cs (by rfl) (by rfl) flag) rfl
    | node k kids =>
      cases k with
      | NODE_ATTRPATH =>
        have hsv : stringValued o (.node NODE_ATTRPATH kids) = false :=
          stringValued_node_ne (by decide) kids
        by_cases hb : ((NixCst.node NODE_ATTRPATH kids).firstChild.map NixCst.text ==
            some n) = true
        · have han : attrpathNamed n (.node NODE_ATTRPATH kids) = true := by
            simp only [attrpathNamed, NixCst.kind]
            simp [hb]
          refine char_step_flag true (ih true _) ?_ ?_
          · cases flag
            · rw [hitFrom_cons_false, han]
              simp
            · rw [hitFrom_cons_true, hsv]
              simp
          · rw [scan_attrpath_step, hb]
            simp
        · have han : attrpathNamed n (.node NODE_ATTRPATH kids) = false := by
            simp only [attrpathNamed, NixCst.kind]
            simp [hb]
          refine char_step_flag flag (ih flag _) (hitFrom_cons_trans cs hsv han flag) ?_
          rw [scan_attrpath_step, show ((NixCst.node NODE_ATTRPATH kids).firstChild.map
            NixCst.text == some n) = false by simpa using hb]
          simp
      | NODE_STRING =>
        have han : attrpathNamed n (.node NODE_STRING kids) = false :=
          attrpathNamed_node_ne (by decide) kids
        by_cases hext : (extract_string_value (.node NODE_STRING kids) == o) = true
        · have hsv : stringValued o (.node NODE_STRING kids) = true := by
            simp only [stringValued, NixCst.kind]
            simp [hext]
          cases flag
          · refine char_step_flag false (ih false _) ?_ ?_
            · rw [hitFrom_cons_false, han]
              simp
            · rw [scan_string_step]
              simp
          · constructor
            · intro h
              rw [hitFrom_cons_true, hsv] at h
              simp at h
            · intro hit h
              rw [hitFrom_cons_true, hsv] at h
              simp only [if_true] at h
              have hhit : hit = NixCst.node NODE_STRING kids := by
                cases h
                rfl
              subst hhit
              constructor
              · intro hi
                rw [scan_string_step, hext]
                simp only [Bool.true_and, if_true]
                unfold hitInterp at hi
                rw [if_pos (by rw [hi])]
              · intro hi
                refine ⟨[], cs, rfl, ?_⟩
                rw [scan_string_step, hext]
                simp only [Bool.true_and, if_true]
                unfold hitInterp at hi
                rw [if_neg (by rw [hi]; simp)]
                show AvScan.found _ off = .found _ (off + (textList []).length)
                norm_num [textList]
        · have hsv : stringValued o (.node NODE_STRING kids) = false := by
            simp only [stringValued, NixCst.kind]
            simp [hext]
          refine char_step_flag flag (ih flag _) (hitFrom_cons_trans cs hsv han flag) ?_
          rw [scan_string_step, show (extract_string_value (.node NODE_STRING kids) == o)
            = false by simpa using hext]
          cases flag <;> simp
      | NODE_ROOT =>
        exact char_step_flag flag (ih flag _) (hitFrom_cons_trans cs (by rfl) (by rfl) flag) rfl
      | NODE_APPLY =>
        exact char_step_flag flag (ih flag _) (hitFrom_cons_trans cs (by rfl) (by rfl) flag) rfl
      | NODE_ATTRPATH_VALUE =>
        exact char_step_flag flag (ih flag _) (hitFrom_cons_trans cs (by rfl) (by rfl) flag) rfl
      | NODE_ATTR_SET =>
        exact char_step_flag flag (ih flag _) (hitFrom_cons_trans cs (by rfl) (by rfl) flag) rfl
      | NODE_IDENT =>
        exact char_step_flag flag (ih flag _) (hitFrom_cons_trans cs (by rfl) (by rfl) flag) rfl
      | NODE_LET_IN =>
        exact char_step_flag flag (ih flag _) (hitFrom_cons_trans cs (by rfl) (by rfl) flag) rfl
      | NODE_INHERIT =>
        exact char_step_flag flag (ih flag _) (hitFrom_cons_trans cs (by rfl) (by rfl) flag) rfl
      | NODE_INTERPOL =>
        exact char_step_flag flag (ih flag _) (hitFrom_cons_trans cs (by rfl) (by rfl) flag) rfl
      | NODE_OTHER =>
        exact char_step_flag flag (ih flag _) (hitFrom_cons_trans cs (by rfl) (by rfl) flag) rfl
      | TOKEN =>
        exact char_step_flag flag (ih flag _) (hitFrom_cons_trans cs (by rfl) (by rfl) flag) rfl


theorem setLoop_cons (n o : String) (c : NixCst) (off : Nat) (L : List (NixCst × Nat)) :
    setLoop n o ((c, off) :: L) =
      (if c.kind = NODE_ATTRPATH_VALUE then
        match scanAvChildren n o c.rawChildren off false with
        | .interp => some none
        | .found nn oo => some (some (nn, oo))
        | .nomatch => setLoop n o L
      else setLoop n o L) := rfl

theorem loop_char (n o : String) : ∀ (L : List (NixCst × Nat)),
    ((L.find? (fun q => q.1.kind == NODE_ATTRPATH_VALUE && (avHit n o q.1).isSome)) = none →
      setLoop n o L = none) ∧
    (∀ q, (L.find? (fun q => q.1.kind == NODE_ATTRPATH_VALUE &&
        (avHit n o q.1).isSome)) = some q →
      ∃ hit, avHit n o q.1 = some hit ∧
        (hitInterp hit = true → setLoop n o L = some none) ∧
        (hitInterp hit = false → ∃ l1 l2, q.1.rawChildren = l1 ++ hit :: l2 ∧
          setLoop n o L = some (some (hit, q.2 + (textList l1).length)))) := by
  intro L
  induction L with
  | nil =>
    constructor
    · intro _
      rfl
    · intro q h
      simp at h
  | cons p L ih =>
    obtain ⟨c, off⟩ := p
    by_cases hk : c.kind = NODE_ATTRPATH_VALUE
    · cases hav : hitFrom n o false c.rawChildren with
      | none =>
        have hscan := (scan_char n o c.rawChildren false off).1 hav
        have hpred : ((c, off).1.kind == NODE_ATTRPATH_VALUE &&
            (avHit n o (c, off).1).isSome) = false := by
          show (c.kind == NODE_ATTRPATH_VALUE && (avHit n o c).isSome) = false
          unfold avHit
          rw [hav]
          simp
        constructor
        · intro h
          rw [List.find?_cons, hpred] at h
          rw [setLoop_cons, if_pos hk, hscan]
          exact ih.1 h
        · intro q hq
          rw [List.find?_cons, hpred] at hq
          obtain ⟨hit, h1, h2, h3⟩ := ih.2 q hq
          refine ⟨hit, h1, fun hi => ?_, fun hi => ?_⟩
          · rw [setLoop_cons, if_pos hk, hscan]
            exact h2 hi
          · obtain ⟨l1, l2, hdec, hfound⟩ := h3 hi
            exact ⟨l1, l2, hdec, by rw [setLoop_cons, if_pos hk, hscan]; exact hfound⟩
      | some hit =>
        have hpred : ((c, off).1.kind == NODE_ATTRPATH_VALUE &&
            (avHit n o (c, off).1).isSome) = true := by
          show (c.kind == NODE_ATTRPATH_VALUE && (avHit n o c).isSome) = true
          unfold avHit
          rw [hav]
          simp [hk]
        constructor
        · intro h
          rw [List.find?_cons, hpred] at h
          simp at h
        · intro q hq
          rw [List.find?_cons, hpred] at hq
          have hqeq : q = (c, off) := by
            cases hq
            rfl
          subst hqeq
          refine ⟨hit, hav, fun hi => ?_, fun hi => ?_⟩
          · have hscan := ((scan_char n o c.rawChildren false off).2 hit hav).1 hi
            rw [setLoop_cons, if_pos hk, hscan]
          · obtain ⟨l1, l2, hdec, hfound⟩ :=
              ((scan_char n o c.rawChildren false off).2 hit hav).2 hi
            exact ⟨l1, l2, hdec, by rw [setLoop_cons, if_pos hk, hfound]⟩
    · have hpred : ((c, off).1.kind == NODE_ATTRPATH_VALUE &&
          (avHit n o (c, off).1).isSome) = false := by
        show (c.kind == NODE_ATTRPATH_VALUE && (avHit n o c).isSome) = false
        simp [hk]
      constructor
      · intro h
        rw [List.find?_cons, hpred] at h
        rw [setLoop_cons, if_neg hk]
        exact ih.1 h
      · intro q hq
        rw [List.find?_cons, hpred] at hq
        obtain ⟨hit, h1, h2, h3⟩ := ih.2 q hq
        refine ⟨hit, h1, fun hi => ?_, fun hi => ?_⟩
        · rw [setLoop_cons, if_neg hk]
          exact h2 hi
        · obtain ⟨l1, l2, hdec, hfound⟩ := h3 hi
          exact ⟨l1, l2, hdec, by rw [setLoop_cons, if_neg hk]; exact hfound⟩

/-- Offset correctness: a descendant recorded at offset `off` splits the
surrounding text at exactly that offset. -/
theorem descListFrom_decomp : ∀ (cs : List NixCst) (off0 : Nat) (x : NixCst) (off : Nat),
    (x, off) ∈ descendantsListFrom cs off0 →
    ∃ pre suf, textList cs = pre ++ x.text ++ suf ∧ off0 + pre.length = off
  | [], off0, x, off => by
    intro h
    simp [descendantsListFrom] at h
  | c :: cs, off0, x, off => by
    intro h
    rw [descendantsListFrom] at h
    rcases List.mem_append.mp h with h1 | h2
    · cases c with
      | token s => simp [descendantsFrom] at h1
      | node k kids =>
        rw [descendantsFrom] at h1
        rcases List.mem_cons.mp h1 with heq | hin
        · have hx : x = NixCst.node k kids := congrArg Prod.fst heq
          have ho : off = off0 := congrArg Prod.snd heq
          refine ⟨"", textList cs, ?_, by simp [ho, strLength_data]⟩
          rw [strEmpty_append, hx]
          rfl
        · obtain ⟨pre, suf, hdec, hoff⟩ := descListFrom_decomp kids off0 x off hin
          refine ⟨pre, suf ++ textList cs, ?_, hoff⟩
          show (NixCst.node k kids).text ++ textList cs = _
          rw [show (NixCst.node k kids).text = textList kids from rfl, hdec]
          rw [String.append_assoc, String.append_assoc]
    · obtain ⟨pre, suf, hdec, hoff⟩ := descListFrom_decomp cs (off0 + c.text.length) x off h2
      refine ⟨c.text ++ pre, suf, ?_, ?_⟩
      · show c.text ++ textList cs = _
        rw [hdec, String.append_assoc, String.append_assoc, String.append_assoc]
      · rw [String.length_append]
        omega

theorem descFrom_decomp (t : NixCst) (x : NixCst) (off : Nat)
    (h : (x, off) ∈ t.descendantsFrom 0) :
    ∃ pre suf, t.text = pre ++ x.text ++ suf ∧ pre.length = off := by
  cases t with
  | token s => simp [NixCst.descendantsFrom] at h
  | node k kids =>
    rw [NixCst.descendantsFrom] at h
    rcases List.mem_cons.mp h with heq | hin
    · have hx : x = NixCst.node k kids := congrArg Prod.fst heq
      have ho : off = 0 := congrArg Prod.snd heq
      refine ⟨"", "", ?_, by simp [ho, strLength_data]⟩
      rw [strEmpty_append, hx, strAppend_empty]
    · obtain ⟨pre, suf, hdec, hoff⟩ := descListFrom_decomp kids 0 x off hin
      exact ⟨pre, suf, hdec, by omega⟩

/-- Splicing a span located by an exact decomposition replaces exactly
the middle segment. -/
theorem spliceRange_exact (P H S q : String) :
    spliceRange (P ++ H ++ S) P.length (P.length + H.length) q = P ++ q ++ S := by
  unfold spliceRange
  have h1 : strTake (P ++ H ++ S) P.length = P := by
    refine strExt ?_
    show (P ++ H ++ S).data.take P.data.length = P.data
    rw [strData_append, strData_append, List.append_assoc]
    exact List.take_left P.data (H.data ++ S.data)
  have h2 : strDrop (P ++ H ++ S) (P.length + H.length) = S := by
    refine strExt ?_
    show (P ++ H ++ S).data.drop (P.data.length + H.data.length) = S.data
    rw [strData_append, strData_append]
    rw [show P.data.length + H.data.length = (P.data ++ H.data).length by
      rw [List.length_append]]
    exact List.drop_left (P.data ++ H.data) S.data
  rw [h1, h2]


/-- C2 (amended): full characterization of `Ast::set`.  With the
`from_ast` invariant (the buffer is the tree's text): the call fails
with the NotFound error exactly when no attrpath-value entry holds
(quote-stripped) `old` under `name`; otherwise the *first* matching
entry in document order is selected, and — unless its string node
carries an interpolation marker, in which case the call is a successful
no-op — exactly that string node's span is replaced by the quoted new
value, every byte outside the span preserved, and the tree re-derived by
the parser from the updated buffer. -/
theorem c2_set_characterization :
    ∀ (rnixParse : String → NixCst) (a : Ast) (n o v : String),
    a.tree.text = a.content →
    ((firstMatchAv a.tree n o = none ↔ holdsVal a.tree n o = false) ∧
     (firstMatchAv a.tree n o = none → ∃ msg, Ast.set rnixParse a n o v = .error msg) ∧
     (∀ av, firstMatchAv a.tree n o = some av → ∃ hit, avHit n o av = some hit ∧
        ((hitInterp hit = true → Ast.set rnixParse a n o v = .ok a) ∧
         (hitInterp hit = false → ∃ pre suf,
            a.content = pre ++ hit.text ++ suf ∧
            Ast.set rnixParse a n o v =
              .ok { content := pre ++ ("\"" ++ v ++ "\"") ++ suf,
                    tree := rnixParse (pre ++ ("\"" ++ v ++ "\"") ++ suf) })))) := by
  intro rnixParse a n o v hwf
  have hmap : firstMatchAv a.tree n o =
      Option.map Prod.fst ((a.tree.descendantsFrom 0).find?
        (fun q => q.1.kind == NODE_ATTRPATH_VALUE && (avHit n o q.1).isSome)) := by
    unfold firstMatchAv NixCst.descendants
    exact List.find?_map Prod.fst (a.tree.descendantsFrom 0)
  have hiff : firstMatchAv a.tree n o = none ↔ holdsVal a.tree n o = false := by
    unfold firstMatchAv holdsVal
    constructor
    · intro h
      rw [← find?_isSome_eq_any, h]
      rfl
    · intro h
      have hs := find?_isSome_eq_any
        (fun av => av.kind == NODE_ATTRPATH_VALUE && (avHit n o av).isSome) a.tree.descendants
      rw [h] at hs
      cases hfind : a.tree.descendants.find?
          (fun av => av.kind == NODE_ATTRPATH_VALUE && (avHit n o av).isSome) with
      | none => rfl
      | some x => rw [hfind] at hs; simp at hs
  refine ⟨hiff, fun hnone => ?_, fun av hsome => ?_⟩
  · have hfind : (a.tree.descendantsFrom 0).find?
        (fun q => q.1.kind == NODE_ATTRPATH_VALUE && (avHit n o q.1).isSome) = none := by
      rw [hmap] at hnone
      exact Option.map_eq_none'.mp hnone
    have hloop := (loop_char n o (a.tree.descendantsFrom 0)).1 hfind
    refine ⟨"Attribute " ++ n ++ " with value " ++ o ++ " not found", ?_⟩
    unfold Ast.set
    rw [hloop]
  · rw [hmap] at hsome
    obtain ⟨q, hfind, hq1⟩ := Option.map_eq_some'.mp hsome
    obtain ⟨hit, havq, hinterp, hfound⟩ := (loop_char n o (a.tree.descendantsFrom 0)).2 q hfind
    rw [hq1] at havq
    refine ⟨hit, havq, fun hi => ?_, fun hi => ?_⟩
    · have hloop := hinterp hi
      unfold Ast.set
      rw [hloop]
    · obtain ⟨l1, l2, hdec, hloop⟩ := hfound hi
      have hmem : q ∈ a.tree.descendantsFrom 0 := List.mem_of_find?_eq_some hfind
      obtain ⟨pre0, suf0, htext, hoff⟩ := by
        have hmem2 : (q.1, q.2) ∈ a.tree.descendantsFrom 0 := by
          cases q
          exact hmem
        exact descFrom_decomp a.tree q.1 q.2 hmem2
      have hqtext : q.1.text = textList l1 ++ (hit.text ++ textList l2) := by
        have hpred := List.find?_some hfind
        rw [Bool.and_eq_true] at hpred
        have hkind : q.1.kind = NODE_ATTRPATH_VALUE := by
          have := hpred.1
          simpa using this
        cases hq : q.1 with
        | token s => rw [hq] at hkind; simp [NixCst.kind] at hkind
        | node k kids =>
          have hraw : kids = l1 ++ hit :: l2 := by
            have := hdec
            rw [hq] at this
            simpa [NixCst.rawChildren] using this
          show textList kids = _
          rw [hraw, textList_append]
          rfl
      have hP : a.content = (pre0 ++ textList l1) ++ hit.text ++ (textList l2 ++ suf0) := by
        rw [← hwf, htext, hqtext]
        simp [String.append_assoc]
      have hPlen : (pre0 ++ textList l1).length = q.2 + (textList l1).length := by
        rw [String.length_append, hoff]
      refine ⟨pre0 ++ textList l1, textList l2 ++ suf0, ?_, ?_⟩
      · rw [hP]
      · unfold Ast.set
        rw [hloop]
        dsimp only
        have hsplice : spliceRange a.content (q.2 + (textList l1).length)
            (q.2 + (textList l1).length + hit.text.length) ("\"" ++ v ++ "\"") =
            (pre0 ++ textList l1) ++ ("\"" ++ v ++ "\"") ++ (textList l2 ++ suf0) := by
          rw [hP, ← hPlen]
          exact spliceRange_exact (pre0 ++ textList l1) hit.text (textList l2 ++ suf0)
            ("\"" ++ v ++ "\"")
        rw [hsplice]

/-- C2 (counterexample): a buffer in which the attribute does hold the
old value — `{ version = "${rev}"; }` queried with old value `${rev}` —
is not in the NotFound case, yet no value is rewritten: the matched
string is interpolated, so `set` returns success leaving the buffer
untouched, contradicting "otherwise it rewrites exactly one value". -/
theorem c2_counterexample :
    Ast.set dummyParse ceInterpAst "version" "$\x7brev\x7d" "2.0" = .ok ceInterpAst ∧
    holdsVal ceInterpAst.tree "version" "$\x7brev\x7d" = true ∧
    ceInterpAst.content = "\x7b version = \"$\x7brev\x7d\"; \x7d" := by
  refine ⟨rfl, by decide, by decide⟩

/-- C2 (witness): the characterization applied to the concrete recipe
`{ version = "1.0"; }` with a parser oracle for the edited buffer. -/
theorem c2_witness :
    ((firstMatchAv (flatAst c2WitBs).tree "version" "1.0" = none ↔
        holdsVal (flatAst c2WitBs).tree "version" "1.0" = false) ∧
     (firstMatchAv (flatAst c2WitBs).tree "version" "1.0" = none →
        ∃ msg, Ast.set c2WitParse (flatAst c2WitBs) "version" "1.0" "2.0" = .error msg) ∧
     (∀ av, firstMatchAv (flatAst c2WitBs).tree "version" "1.0" = some av →
        ∃ hit, avHit "version" "1.0" av = some hit ∧
          ((hitInterp hit = true →
              Ast.set c2WitParse (flatAst c2WitBs) "version" "1.0" "2.0" = .ok (flatAst c2WitBs)) ∧
           (hitInterp hit = false → ∃ pre suf,
              (flatAst c2WitBs).content = pre ++ hit.text ++ suf ∧
              Ast.set c2WitParse (flatAst c2WitBs) "version" "1.0" "2.0" =
                .ok { content := pre ++ ("\"" ++ "2.0" ++ "\"") ++ suf,
                      tree := c2WitParse (pre ++ ("\"" ++ "2.0" ++ "\"") ++ suf) })))) :=
  c2_set_characterization c2WitParse (flatAst c2WitBs) "version" "1.0" "2.0" (by decide)

/-- C3 (amended): when the first matching value of a `set` call carries
an interpolation marker, the call returns success and modifies nothing —
the state (buffer and tree) is returned unchanged. -/
theorem c3_interp_guard :
    ∀ (rnixParse : String → NixCst) (a : Ast) (n o v : String) (av hit : NixCst),
    firstMatchAv a.tree n o = some av → avHit n o av = some hit → hitInterp hit = true →
    Ast.set rnixParse a n o v = .ok a := by
  intro rnixParse a n o v av hit hsome hav hi
  have hmap : firstMatchAv a.tree n o =
      Option.map Prod.fst ((a.tree.descendantsFrom 0).find?
        (fun q => q.1.kind == NODE_ATTRPATH_VALUE && (avHit n o q.1).isSome)) := by
    unfold firstMatchAv NixCst.descendants
    exact List.find?_map Prod.fst (a.tree.descendantsFrom 0)
  rw [hmap] at hsome
  obtain ⟨q, hfind, hq1⟩ := Option.map_eq_some'.mp hsome
  obtain ⟨hit0, havq, hinterp, _⟩ := (loop_char n o (a.tree.descendantsFrom 0)).2 q hfind
  rw [hq1, hav] at havq
  have hh : hit0 = hit := by
    cases havq
    rfl
  subst hh
  have hloop := hinterp hi
  unfold Ast.set
  rw [hloop]

/-- C3 (counterexample): on `{ version = "${rev}"; }` — a value whose
source text contains the interpolation marker — a `set` call whose old
value does *not* textually match (`1.0`) skips the value, finds nothing
else and fails with NotFound: it does not return success as claimed. -/
theorem c3_counterexample :
    exceptOk (Ast.set dummyParse ceInterpAst "version" "1.0" "2.0") = false ∧
    strContains interpRevString.text interpOpen = true ∧
    strContains interpRevString.text interpClose = true ∧
    ceInterpAst.get "version" = some "$\x7brev\x7d" := by decide

/-- C3 (witness): the interpolation guard applied at the concrete
`{ version = "${rev}"; }` recipe with the matching old value. -/
theorem c3_witness :
    Ast.set dummyParse ceInterpAst "version" "$\x7brev\x7d" "2.0" = .ok ceInterpAst :=
  c3_interp_guard dummyParse ceInterpAst "version" "$\x7brev\x7d" "2.0"
    (.node NODE_ATTRPATH_VALUE [mkAttrpath "version", .token " = ", interpRevString, .token ";"])
    interpRevString rfl rfl rfl


/-! ## The flat family: text and structure lemmas (C1, C4, C8) -/

theorem text_token (s : String) : (NixCst.token s).text = s := rfl

theorem text_node (k : SyntaxKind) (cs : List NixCst) : (NixCst.node k cs).text = textList cs :=
  rfl

theorem textList_nil : textList [] = "" := rfl

theorem textList_cons (c : NixCst) (cs : List NixCst) :
    textList (c :: cs) = c.text ++ textList cs := rfl

theorem mkIdent_text (nm : String) : (mkIdent nm).text = nm := by
  simp [mkIdent, text_node, textList_cons, textList_nil, text_token, strAppend_empty]

theorem mkAttrpath_text (nm : String) : (mkAttrpath nm).text = nm := by
  simp [mkAttrpath, text_node, textList_cons, textList_nil, strAppend_empty, mkIdent_text]

theorem mkString_text (v : String) : (mkString v).text = "\"" ++ v ++ "\"" := by
  simp [mkString, text_node, textList_cons, textList_nil, text_token, strAppend_empty]

theorem mkAV_text (b : FlatBinding) :
    (mkAV b).text = b.name ++ " = " ++ ("\"" ++ b.value ++ "\"") ++ ";" := by
  simp only [mkAV, text_node, textList_cons, textList_nil, text_token, strAppend_empty,
    mkAttrpath_text, mkString_text]
  refine strExt ?_
  simp [strData_append, List.append_assoc]

theorem bindingText_eq (b : FlatBinding) : bindingText b = (mkAV b).text ++ " " := by
  rw [mkAV_text]
  unfold bindingText
  refine strExt ?_
  simp [strData_append, List.append_assoc]

theorem flatBody_append : ∀ (l1 l2 : List FlatBinding),
    flatBody (l1 ++ l2) = flatBody l1 ++ flatBody l2 := by
  intro l1 l2
  induction l1 with
  | nil => simp [flatBody, strEmpty_append]
  | cons b l1 ih => simp [flatBody, ih, String.append_assoc]

theorem flatMap_textList (bs : List FlatBinding) :
    textList (bs.flatMap fun b => [mkAV b, NixCst.token " "]) = flatBody bs := by
  induction bs with
  | nil => rfl
  | cons b bs ih =>
    show textList ([mkAV b, NixCst.token " "] ++ bs.flatMap fun b => [mkAV b, NixCst.token " "])
      = _
    rw [textList_append]
    show ((mkAV b).text ++ (" " ++ "")) ++ _ = _
    rw [strAppend_empty, ih]
    rw [show flatBody (b :: bs) = bindingText b ++ flatBody bs from rfl, bindingText_eq]

theorem flatTree_text (bs : List FlatBinding) : (flatTree bs).text = flatContent bs := by
  show textList [NixCst.node NODE_ATTR_SET (flatChildren bs)] = _
  rw [textList_cons, textList_nil, strAppend_empty, text_node]
  unfold flatChildren flatContent
  rw [show (NixCst.token "\x7b " :: (bs.flatMap fun b => [mkAV b, NixCst.token " "])) ++
      [NixCst.token "\x7d"] =
    NixCst.token "\x7b " :: ((bs.flatMap fun b => [mkAV b, NixCst.token " "]) ++
      [NixCst.token "\x7d"]) from rfl]
  rw [textList_cons, textList_append, flatMap_textList]
  rw [show textList [NixCst.token "\x7d"] = "\x7d" by
    rw [textList_cons, textList_nil, strAppend_empty, text_token]]
  rw [text_token, String.append_assoc]

theorem flatContent_decomp (pre post : List FlatBinding) (n w : String) :
    flatContent (pre ++ { name := n, value := w } :: post) =
      ("\x7b " ++ flatBody pre ++ (n ++ " = ")) ++ ("\"" ++ w ++ "\"") ++
        (";" ++ (" " ++ flatBody post ++ "\x7d")) := by
  unfold flatContent
  rw [flatBody_append]
  rw [show flatBody ({ name := n, value := w } :: post) =
    bindingText { name := n, value := w } ++ flatBody post from rfl]
  rw [bindingText_eq, mkAV_text]
  refine strExt ?_
  simp [strData_append, List.append_assoc]

theorem flatPrefix_length (pre : List FlatBinding) (n : String) :
    ("\x7b " ++ flatBody pre ++ (n ++ " = ")).length =
      2 + (flatBody pre).length + n.length + 3 := by
  rw [String.length_append, String.length_append, String.length_append]
  have h1 : ("\x7b " : String).length = 2 := by decide
  have h2 : (" = " : String).length = 3 := by decide
  omega

theorem quoted_length (w : String) : ("\"" ++ w ++ "\"").length = w.length + 2 := by
  rw [String.length_append, String.length_append]
  have h1 : ("\"" : String).length = 1 := by decide
  omega

theorem extract_mkString {v : String} (hq : noQuote v = true) :
    extract_string_value (mkString v) = v := by
  unfold extract_string_value
  rw [mkString_text]
  refine strExt ?_
  show (("\"" ++ v ++ "\"").data.filter (fun c => c ≠ '"')) = v.data
  rw [strData_append, strData_append]
  rw [List.filter_append, List.filter_append]
  rw [show (("\"" : String).data.filter (fun c => c ≠ '"')) = [] by decide]
  rw [List.filter_eq_self.mpr]
  · simp
  · intro c hc
    unfold noQuote at hq
    rw [List.all_eq_true] at hq
    have := hq c hc
    simpa using this

theorem noQuote_listReplaceFuel {rep : List Char} (pat : List Char)
    (hrep : ∀ c ∈ rep, c ≠ '"') :
    ∀ (fuel : Nat) (l : List Char), (∀ c ∈ l, c ≠ '"') →
      ∀ c ∈ listReplaceFuel pat rep fuel l, c ≠ '"' := by
  intro fuel
  induction fuel with
  | zero =>
    intro l hl
    simpa [listReplaceFuel] using hl
  | succ fuel ih =>
    intro l hl c hc
    cases l with
    | nil => simp [listReplaceFuel] at hc
    | cons a as =>
      rw [listReplaceFuel] at hc
      by_cases hcond : (!pat.isEmpty && listStartsWith pat (a :: as)) = true
      · rw [if_pos hcond] at hc
        rcases List.mem_append.mp hc with h1 | h2
        · exact hrep c h1
        · refine ih _ ?_ c h2
          intro d hd
          exact hl d (List.mem_of_mem_drop hd)
      · rw [if_neg hcond] at hc
        rcases List.mem_cons.mp hc with h1 | h2
        · exact hl c (h1 ▸ List.mem_cons_self a as)
        · exact ih as (fun d hd => hl d (List.mem_cons_of_mem a hd)) c h2

theorem noQuote_strReplace {s rep : String} (pat : String) (hs : noQuote s = true)
    (hrep : noQuote rep = true) : noQuote (strReplace s pat rep) = true := by
  unfold noQuote at hs hrep ⊢
  rw [List.all_eq_true] at hs hrep ⊢
  intro c hc
  have hres := noQuote_listReplaceFuel pat.data
    (fun d hd => by simpa using hrep d hd) s.data.length s.data
    (fun d hd => by simpa using hs d hd) c hc
  simpa using hres


/-! ## The flat family: the `set` computation -/

theorem descListFrom_append : ∀ (l1 l2 : List NixCst) (off : Nat),
    NixCst.descendantsListFrom (l1 ++ l2) off =
      NixCst.descendantsListFrom l1 off ++
        NixCst.descendantsListFrom l2 (off + (textList l1).length) := by
  intro l1
  induction l1 with
  | nil =>
    intro l2 off
    show NixCst.descendantsListFrom l2 off = [] ++ NixCst.descendantsListFrom l2 (off + _)
    rw [List.nil_append]
    rw [show (textList ([] : List NixCst)).length = 0 by rfl, Nat.add_zero]
  | cons c l1 ih =>
    intro l2 off
    show NixCst.descendantsFrom c off ++ NixCst.descendantsListFrom (l1 ++ l2) _ = _
    rw [ih]
    rw [show NixCst.descendantsListFrom (c :: l1) off =
      NixCst.descendantsFrom c off ++ NixCst.descendantsListFrom l1 (off + c.text.length)
      from rfl]
    rw [List.append_assoc]
    have harith : off + c.text.length + (textList l1).length =
        off + (textList (c :: l1)).length := by
      rw [textList_cons, String.length_append]
      omega
    rw [harith]

theorem setLoop_cons_skip {n o : String} {c : NixCst} (off : Nat) (L : List (NixCst × Nat))
    (hk : c.kind ≠ NODE_ATTRPATH_VALUE) :
    setLoop n o ((c, off) :: L) = setLoop n o L := by
  rw [setLoop_cons, if_neg hk]

theorem scan_token_step (n o s : String) (cs : List NixCst) (off : Nat) (flag : Bool) :
    scanAvChildren n o (.token s :: cs) off flag =
      scanAvChildren n o cs (off + s.length) flag := rfl

theorem scan_mkAttrpath_step (n o nm : String) (cs : List NixCst) (off : Nat) (flag : Bool) :
    scanAvChildren n o (mkAttrpath nm :: cs) off flag =
      scanAvChildren n o cs (off + (mkAttrpath nm).text.length) (flag || (nm == n)) := by
  rw [show mkAttrpath nm = NixCst.node NODE_ATTRPATH [mkIdent nm] from rfl, scan_attrpath_step]
  have hbeq : ((NixCst.node NODE_ATTRPATH [mkIdent nm]).firstChild.map NixCst.text ==
      some n) = (nm == n) := by
    rw [show (NixCst.node NODE_ATTRPATH [mkIdent nm]).firstChild = some (mkIdent nm) from rfl]
    show ((some (mkIdent nm).text : Option String) == some n) = _
    rw [mkIdent_text]
    rfl
  rw [hbeq]

theorem scan_mkString_step (n o w : String) (cs : List NixCst) (off : Nat) (flag : Bool) :
    scanAvChildren n o (mkString w :: cs) off flag =
      (if flag && (extract_string_value (mkString w) == o) then
        (if hitInterp (mkString w) then .interp else .found (mkString w) off)
       else scanAvChildren n o cs (off + (mkString w).text.length) flag) := by
  rw [show mkString w = NixCst.node NODE_STRING [.token ("\"" ++ w ++ "\"")] from rfl,
    scan_string_step]
  rfl

theorem scan_mkAV_found (n o : String) (off : Nat) (hq : noQuote o = true)
    (hni : hitInterp (mkString o) = false) :
    scanAvChildren n o (mkAV { name := n, value := o }).rawChildren off false =
      .found (mkString o) (off + (mkAttrpath n).text.length + 3) := by
  show scanAvChildren n o
    [mkAttrpath n, .token " = ", mkString o, .token ";"] off false = _
  rw [scan_mkAttrpath_step, scan_token_step, scan_mkString_step]
  rw [show (false || (n == n)) = true by simp]
  rw [extract_mkString hq]
  rw [show (o == o) = true by simp]
  rw [hni]
  rw [show (true && true) = true from rfl]
  rw [if_pos rfl, if_neg (by simp)]
  rfl

theorem scan_mkAV_nomatch (n o : String) (b : FlatBinding) (off : Nat)
    (hb : ¬(b.name = n ∧ b.value = o)) (hqb : noQuote b.value = true) :
    scanAvChildren n o (mkAV b).rawChildren off false = .nomatch := by
  show scanAvChildren n o
    [mkAttrpath b.name, .token " = ", mkString b.value, .token ";"] off false = _
  rw [scan_mkAttrpath_step, scan_token_step, scan_mkString_step]
  rw [extract_mkString hqb]
  by_cases hn : b.name = n
  · have hv : (b.value == o) = false := by
      rw [beq_eq_false_iff_ne]
      intro hcon
      exact hb ⟨hn, hcon⟩
    rw [hv]
    rw [show ((false || (b.name == n)) && false) = false by simp]
    rw [if_neg (by simp)]
    rfl
  · have hn2 : (b.name == n) = false := by
      rw [beq_eq_false_iff_ne]
      exact hn
    rw [hn2]
    rw [show ((false || false) && (b.value == o)) = false by simp]
    rw [if_neg (by simp)]
    rfl

theorem setLoop_mkAV_cons (n o : String) (b : FlatBinding) (off : Nat)
    (L : List (NixCst × Nat)) :
    setLoop n o (NixCst.descendantsFrom (mkAV b) off ++ L) =
      (match scanAvChildren n o (mkAV b).rawChildren off false with
       | .interp => some none
       | .found nn oo => some (some (nn, oo))
       | .nomatch => setLoop n o L) := by
  have hd : NixCst.descendantsFrom (mkAV b) off =
      (mkAV b, off) :: (mkAttrpath b.name, off) :: (mkIdent b.name, off) ::
        [(mkString b.value,
          off + (mkAttrpath b.name).text.length + (NixCst.token " = ").text.length)] := rfl
  rw [hd]
  rw [show ((mkAV b, off) :: (mkAttrpath b.name, off) :: (mkIdent b.name, off) ::
      [(mkString b.value,
        off + (mkAttrpath b.name).text.length + (NixCst.token " = ").text.length)]) ++ L =
    (mkAV b, off) :: (mkAttrpath b.name, off) :: (mkIdent b.name, off) ::
      (mkString b.value,
        off + (mkAttrpath b.name).text.length + (NixCst.token " = ").text.length) :: L
    from rfl]
  rw [setLoop_cons, if_pos (show (mkAV b).kind = NODE_ATTRPATH_VALUE from rfl)]
  cases hscan : scanAvChildren n o (mkAV b).rawChildren off false
  · rfl
  · rfl
  · rw [setLoop_cons_skip _ _ (by simp [mkAttrpath, NixCst.kind])]
    rw [setLoop_cons_skip _ _ (by simp [mkIdent, NixCst.kind])]
    rw [setLoop_cons_skip _ _ (by simp [mkString, NixCst.kind])]

theorem setLoop_flat_skip (n o : String) : ∀ (bs : List FlatBinding) (off : Nat)
    (L : List (NixCst × Nat)),
    (∀ b ∈ bs, ¬(b.name = n ∧ b.value = o)) → flatWellFormed bs = true →
    setLoop n o
      (NixCst.descendantsListFrom (bs.flatMap fun b => [mkAV b, .token " "]) off ++ L) =
      setLoop n o L := by
  intro bs
  induction bs with
  | nil =>
    intro off L _ _
    rfl
  | cons b bs ih =>
    intro off L hb hwf
    rw [show ((b :: bs).flatMap fun b => [mkAV b, NixCst.token " "]) =
      [mkAV b, NixCst.token " "] ++ (bs.flatMap fun b => [mkAV b, NixCst.token " "])
      from rfl]
    rw [descListFrom_append]
    rw [show NixCst.descendantsListFrom [mkAV b, NixCst.token " "] off =
      NixCst.descendantsFrom (mkAV b) off from by
        show NixCst.descendantsFrom (mkAV b) off ++
          NixCst.descendantsListFrom [NixCst.token " "] (off + (mkAV b).text.length) = _
        rw [show NixCst.descendantsListFrom [NixCst.token " "]
          (off + (mkAV b).text.length) = [] from rfl]
        rw [List.append_nil]]
    rw [List.append_assoc, setLoop_mkAV_cons]
    have hwf1 : flatWellFormed bs = true := by
      unfold flatWellFormed at hwf ⊢
      rw [List.all_cons, Bool.and_eq_true] at hwf
      exact hwf.2
    have hqb : noQuote b.value = true := by
      unfold flatWellFormed at hwf
      rw [List.all_cons, Bool.and_eq_true] at hwf
      exact (Bool.and_eq_true _ _ |>.mp hwf.1).2
    rw [scan_mkAV_nomatch n o b off (hb b (List.mem_cons_self b bs)) hqb]
    exact ih _ _ (fun x hx => hb x (List.mem_cons_of_mem b hx)) hwf1

theorem setLoop_flat_found (n o : String) (post : List FlatBinding) (off : Nat)
    (L : List (NixCst × Nat)) (hq : noQuote o = true)
    (hni : hitInterp (mkString o) = false) :
    setLoop n o
      (NixCst.descendantsListFrom
        ((({ name := n, value := o } : FlatBinding) :: post).flatMap
          fun b => [mkAV b, .token " "]) off ++ L) =
      some (some (mkString o, off + (mkAttrpath n).text.length + 3)) := by
  rw [show ((({ name := n, value := o } : FlatBinding) :: post).flatMap
      fun b => [mkAV b, NixCst.token " "]) =
    [mkAV { name := n, value := o }, NixCst.token " "] ++
      (post.flatMap fun b => [mkAV b, NixCst.token " "]) from rfl]
  rw [descListFrom_append]
  rw [show NixCst.descendantsListFrom
      [mkAV { name := n, value := o }, NixCst.token " "] off =
    NixCst.descendantsFrom (mkAV { name := n, value := o }) off from by
      show NixCst.descendantsFrom (mkAV { name := n, value := o }) off ++
        NixCst.descendantsListFrom [NixCst.token " "] _ = _
      rw [show NixCst.descendantsListFrom [NixCst.token " "]
        (off + (mkAV { name := n, value := o }).text.length) = [] from rfl]
      rw [List.append_nil]]
  rw [List.append_assoc, setLoop_mkAV_cons]
  rw [scan_mkAV_found n o off hq hni]


theorem descListFrom_token (s : String) (off : Nat) :
    NixCst.descendantsListFrom [NixCst.token s] off = [] := rfl

theorem setLoop_flatTree (n o : String) (bs : List FlatBinding) :
    setLoop n o ((flatTree bs).descendantsFrom 0) =
      setLoop n o
        (NixCst.descendantsListFrom (bs.flatMap fun b => [mkAV b, NixCst.token " "])
          (0 + ("\x7b " : String).length) ++ []) := by
  rw [show (flatTree bs).descendantsFrom 0 =
      (flatTree bs, 0) :: (((NixCst.node NODE_ATTR_SET (flatChildren bs), 0) ::
        NixCst.descendantsListFrom (flatChildren bs) 0) ++ []) from rfl]
  rw [List.append_nil]
  rw [setLoop_cons, if_neg (show ¬(flatTree bs).kind = NODE_ATTRPATH_VALUE by
    simp [flatTree, NixCst.kind])]
  rw [setLoop_cons,
    if_neg (show ¬(NixCst.node NODE_ATTR_SET (flatChildren bs)).kind = NODE_ATTRPATH_VALUE by
      simp [NixCst.kind])]
  rw [show NixCst.descendantsListFrom (flatChildren bs) 0 =
    NixCst.descendantsListFrom ((bs.flatMap fun b => [mkAV b, NixCst.token " "]) ++
      [NixCst.token "\x7d"]) (0 + ("\x7b " : String).length) from rfl]
  rw [descListFrom_append, descListFrom_token]

/-- `Ast::set` on a flat recipe whose first name/value match is the
distinguished binding: the call succeeds, the replaced value span gets
the quoted new value, everything outside it is preserved verbatim (the
result is again the flat recipe, with just that binding's value
changed), and the tree is re-derived from the new buffer. -/
theorem set_flat (rnixParse : String → NixCst) (pre post : List FlatBinding) (n o v : String)
    (hwfpre : flatWellFormed pre = true)
    (hq : noQuote o = true)
    (hpre : ∀ b ∈ pre, ¬(b.name = n ∧ b.value = o))
    (hni : hitInterp (mkString o) = false) :
    Ast.set rnixParse (flatAst (pre ++ ({ name := n, value := o } : FlatBinding) :: post))
        n o v =
      .ok { content := flatContent (pre ++ ({ name := n, value := v } : FlatBinding) :: post),
            tree :=
              rnixParse
                (flatContent (pre ++ ({ name := n, value := v } : FlatBinding) :: post)) } := by
  have hloop : setLoop n o
      ((flatAst (pre ++ ({ name := n, value := o } : FlatBinding) :: post)).tree.descendantsFrom
        0) =
      some (some (mkString o,
        0 + ("\x7b " : String).length + (flatBody pre).length +
          (mkAttrpath n).text.length + 3)) := by
    rw [show (flatAst (pre ++ ({ name := n, value := o } : FlatBinding) :: post)).tree =
      flatTree (pre ++ ({ name := n, value := o } : FlatBinding) :: post) from rfl]
    rw [setLoop_flatTree]
    rw [List.flatMap_append, descListFrom_append, List.append_assoc]
    rw [setLoop_flat_skip n o pre _ _ hpre hwfpre]
    rw [setLoop_flat_found n o post _ [] hq hni]
    rw [flatMap_textList]
  unfold Ast.set
  rw [hloop]
  dsimp only
  have hcontent : spliceRange
      (flatAst (pre ++ ({ name := n, value := o } : FlatBinding) :: post)).content
      (0 + ("\x7b " : String).length + (flatBody pre).length +
        (mkAttrpath n).text.length + 3)
      (0 + ("\x7b " : String).length + (flatBody pre).length +
        (mkAttrpath n).text.length + 3 + (mkString o).text.length)
      ("\"" ++ v ++ "\"") =
      flatContent (pre ++ ({ name := n, value := v } : FlatBinding) :: post) := by
    rw [show (flatAst (pre ++ ({ name := n, value := o } : FlatBinding) :: post)).content =
      flatContent (pre ++ ({ name := n, value := o } : FlatBinding) :: post) from rfl]
    rw [flatContent_decomp, mkString_text, mkAttrpath_text]
    have hOFF : 0 + ("\x7b " : String).length + (flatBody pre).length + n.length + 3 =
        ("\x7b " ++ flatBody pre ++ (n ++ " = ")).length := by
      rw [flatPrefix_length]
      have h2 : ("\x7b " : String).length = 2 := by decide
      omega
    rw [hOFF]
    rw [spliceRange_exact]
    exact (flatContent_decomp pre post n v).symm
  rw [hcontent]


/-! ## The flat family: the `get` computation -/

theorem flatMap_filter (bs : List FlatBinding) :
    (bs.flatMap fun b => [mkAV b, NixCst.token " "]).filter (fun c => !c.isToken) =
      bs.map mkAV := by
  induction bs with
  | nil => rfl
  | cons b bs ih =>
    rw [show ((b :: bs).flatMap fun x => [mkAV x, NixCst.token " "]) =
      mkAV b :: NixCst.token " " :: (bs.flatMap fun x => [mkAV x, NixCst.token " "]) from rfl]
    rw [List.filter_cons, List.filter_cons]
    rw [if_pos (show (!(mkAV b).isToken) = true from rfl)]
    rw [if_neg (show ¬(!(NixCst.token " ").isToken) = true by decide)]
    rw [ih, List.map_cons]

theorem flatChildren_childNodes (bs : List FlatBinding) :
    (NixCst.node NODE_ATTR_SET (flatChildren bs)).childNodes = bs.map mkAV := by
  show (flatChildren bs).filter (fun c => !c.isToken) = bs.map mkAV
  unfold flatChildren
  rw [show (NixCst.token "\x7b " ::
      (bs.flatMap fun b => [mkAV b, NixCst.token " "]) ++ [NixCst.token "\x7d"]) =
    NixCst.token "\x7b " ::
      ((bs.flatMap fun b => [mkAV b, NixCst.token " "]) ++ [NixCst.token "\x7d"]) from rfl]
  rw [List.filter_cons]
  rw [if_neg (show ¬(!(NixCst.token "\x7b ").isToken) = true by decide)]
  rw [List.filter_append, flatMap_filter]
  rw [show List.filter (fun c => !c.isToken) [NixCst.token "\x7d"] = [] from rfl]
  rw [List.append_nil]

theorem kvScan_mkAV (n : String) (b : FlatBinding) (hq : noQuote b.value = true) :
    kvScan n (mkAV b).childNodes false none =
      (if b.name == n then some b.value else none) := by
  rw [show (mkAV b).childNodes = [mkAttrpath b.name, mkString b.value] from rfl]
  rw [show kvScan n [mkAttrpath b.name, mkString b.value] false none =
    kvScan n [mkString b.value]
      (false || (((mkAttrpath b.name).firstChild.map NixCst.text) == some n)) none from rfl]
  rw [show (((mkAttrpath b.name).firstChild.map NixCst.text) == some n) = (b.name == n) from by
    rw [show (mkAttrpath b.name).firstChild = some (mkIdent b.name) from rfl]
    show ((some (mkIdent b.name).text : Option String) == some n) = _
    rw [mkIdent_text]
    rfl]
  rw [Bool.false_or]
  rw [show kvScan n [mkString b.value] (b.name == n) none =
    kvScan n [] (b.name == n) (some (extract_string_value (mkString b.value))) from rfl]
  rw [extract_mkString hq]
  rfl

theorem listFindSome_cons {α β : Type} (f : α → Option β) (a : α) (l : List α) :
    (a :: l).findSome? f =
      (match f a with | some b => some b | none => l.findSome? f) := rfl

theorem innerFindSome_flat (n : String) : ∀ (bs : List FlatBinding),
    flatWellFormed bs = true →
    (bs.map mkAV).findSome? (fun av =>
      if av.kind = NODE_ATTRPATH_VALUE then kvScan n av.childNodes false none else none) =
      flatLookup bs n := by
  intro bs
  induction bs with
  | nil => intro _; rfl
  | cons b bs ih =>
    intro hwf
    have hwfb : noQuote b.value = true := by
      unfold flatWellFormed at hwf
      rw [List.all_cons, Bool.and_eq_true] at hwf
      exact (Bool.and_eq_true _ _ |>.mp hwf.1).2
    have hwfr : flatWellFormed bs = true := by
      unfold flatWellFormed at hwf ⊢
      rw [List.all_cons, Bool.and_eq_true] at hwf
      exact hwf.2
    have hf : (if (mkAV b).kind = NODE_ATTRPATH_VALUE then
        kvScan n (mkAV b).childNodes false none else none) =
        (if b.name == n then some b.value else none) := by
      rw [if_pos (show (mkAV b).kind = NODE_ATTRPATH_VALUE from rfl), kvScan_mkAV n b hwfb]
    rw [List.map_cons, listFindSome_cons, hf]
    cases hn : (b.name == n) with
    | false =>
      rw [if_neg (by simp)]
      show (bs.map mkAV).findSome? _ = _
      rw [ih hwfr]
      simp [flatLookup, List.find?_cons, hn]
    | true =>
      rw [if_pos rfl]
      show some b.value = _
      simp [flatLookup, List.find?_cons, hn]

theorem flatLookup_skip (n : String) : ∀ (pre : List FlatBinding)
    (post : List FlatBinding) (v : String), (∀ b ∈ pre, b.name ≠ n) →
    flatLookup (pre ++ ({ name := n, value := v } : FlatBinding) :: post) n = some v := by
  intro pre
  induction pre with
  | nil =>
    intro post v _
    simp [flatLookup, List.find?_cons]
  | cons b pre ih =>
    intro post v h
    have hb : (b.name == n) = false := by
      rw [beq_eq_false_iff_ne]
      exact h b (List.mem_cons_self b pre)
    rw [List.cons_append]
    show ((b :: (pre ++ _)).find? (fun x => x.name == n)).map FlatBinding.value = _
    rw [List.find?_cons, hb]
    exact ih post v (fun x hx => h x (List.mem_cons_of_mem b hx))

theorem getInternal_flat_found (bs : List FlatBinding) (n w : String)
    (hwf : flatWellFormed bs = true) (hl : flatLookup bs n = some w) :
    getInternal n (flatTree bs) = some w := by
  unfold getInternal
  rw [show NixCst.descendants (flatTree bs) =
    flatTree bs :: NixCst.node NODE_ATTR_SET (flatChildren bs) ::
      ((NixCst.descendantsListFrom (flatChildren bs) 0 ++
        ([] : List (NixCst × Nat))).map Prod.fst) from rfl]
  rw [listFindSome_cons]
  rw [if_neg (show ¬(flatTree bs).kind = NODE_ATTR_SET by simp [flatTree, NixCst.kind])]
  show (NixCst.node NODE_ATTR_SET (flatChildren bs) ::
    ((NixCst.descendantsListFrom (flatChildren bs) 0 ++
      ([] : List (NixCst × Nat))).map Prod.fst)).findSome? _ = _
  rw [listFindSome_cons]
  rw [if_pos (show (NixCst.node NODE_ATTR_SET (flatChildren bs)).kind = NODE_ATTR_SET
    from rfl)]
  rw [flatChildren_childNodes, innerFindSome_flat n bs hwf, hl]

theorem get_flat_found (bs : List FlatBinding) (n w : String)
    (hwf : flatWellFormed bs = true) (hl : flatLookup bs n = some w) :
    Ast.get (flatAst bs) n = some w := by
  unfold Ast.get
  rw [show (flatAst bs).tree = flatTree bs from rfl]
  rw [getInternal_flat_found bs n w hwf hl]


/-! ## C1: round-trip with frame -/

/-- C1 (amended): on a single-level recipe in which no earlier binding
shares the attribute name, `set(name, old, new)` succeeds and produces
exactly the recipe with that binding's value replaced; `get(name)` on
the result returns the new value; and old and new buffer share the same
prefix and suffix around the replaced value span (the frame). -/
theorem c1_roundtrip_flat (rnixParse : String → NixCst) (pre post : List FlatBinding)
    (n o v : String)
    (hwfpre : flatWellFormed pre = true) (hwfpost : flatWellFormed post = true)
    (hqn : noQuote n = true) (hq : noQuote o = true) (hqv : noQuote v = true)
    (hnames : ∀ b ∈ pre, b.name ≠ n)
    (hni : hitInterp (mkString o) = false)
    (hparse :
      rnixParse (flatContent (pre ++ ({ name := n, value := v } : FlatBinding) :: post)) =
        flatTree (pre ++ ({ name := n, value := v } : FlatBinding) :: post)) :
    Ast.set rnixParse (flatAst (pre ++ ({ name := n, value := o } : FlatBinding) :: post))
        n o v =
      .ok (flatAst (pre ++ ({ name := n, value := v } : FlatBinding) :: post)) ∧
    Ast.get (flatAst (pre ++ ({ name := n, value := v } : FlatBinding) :: post)) n = some v ∧
    (flatAst (pre ++ ({ name := n, value := o } : FlatBinding) :: post)).content =
      ("\x7b " ++ flatBody pre ++ (n ++ " = ")) ++ ("\"" ++ o ++ "\"") ++
        (";" ++ (" " ++ flatBody post ++ "\x7d")) ∧
    (flatAst (pre ++ ({ name := n, value := v } : FlatBinding) :: post)).content =
      ("\x7b " ++ flatBody pre ++ (n ++ " = ")) ++ ("\"" ++ v ++ "\"") ++
        (";" ++ (" " ++ flatBody post ++ "\x7d")) := by
  refine ⟨?_, ?_, ?_, ?_⟩
  · rw [set_flat rnixParse pre post n o v hwfpre hq
      (fun b hb hcon => hnames b hb hcon.1) hni, hparse]
    rfl
  · refine get_flat_found _ n v ?_ (flatLookup_skip n pre post v hnames)
    have hsplit : flatWellFormed (pre ++ ({ name := n, value := v } : FlatBinding) :: post) =
        (flatWellFormed pre && ((noQuote n && noQuote v) && flatWellFormed post)) := by
      unfold flatWellFormed
      rw [List.all_append, List.all_cons]
    rw [hsplit, hwfpre, hwfpost, hqn, hqv]
    rfl
  · exact flatContent_decomp pre post n o
  · exact flatContent_decomp pre post n v

/-- C1 (counterexample): in
`\x7b a = \x7b version = "1.0"; \x7d; version = "1.0"; \x7d` the attribute
`version` is present as a direct non-interpolated string value `1.0`, yet
`set("version", "1.0", "2.0")` followed by `get("version")` returns the
old value `1.0`: `set` rewrites the first match in document order (the
nested one), while `get` reads the outer one. -/
theorem c1_counterexample :
    ((Ast.set ceNestedParse ceNestedAst "version" "1.0" "2.0").toOption.map
      (fun a => a.get "version")) = some (some "1.0") ∧
    ceNestedAst.content = "\x7b a = \x7b version = \"1.0\"; \x7d; version = \"1.0\"; \x7d" ∧
    ceNestedAst.get "version" = some "1.0" := by
  refine ⟨by decide, by decide, by decide⟩

/-- C1 (witness): the round-trip on the spec §8 scenario recipe
`pname = "foo"; version = "1.0.0"; hash = "sha256-AAAA=";`, updating the
version to `1.2.0`. -/
theorem c1_witness :
    Ast.set c1WitParse
        (flatAst (c1WitPre ++ ({ name := "version", value := "1.0.0" } : FlatBinding) ::
          c1WitPost)) "version" "1.0.0" "1.2.0" =
      .ok (flatAst (c1WitPre ++ ({ name := "version", value := "1.2.0" } : FlatBinding) ::
        c1WitPost)) ∧
    Ast.get (flatAst (c1WitPre ++ ({ name := "version", value := "1.2.0" } : FlatBinding) ::
      c1WitPost)) "version" = some "1.2.0" ∧
    (flatAst (c1WitPre ++ ({ name := "version", value := "1.0.0" } : FlatBinding) ::
      c1WitPost)).content =
      ("\x7b " ++ flatBody c1WitPre ++ ("version" ++ " = ")) ++
        ("\"" ++ "1.0.0" ++ "\"") ++ (";" ++ (" " ++ flatBody c1WitPost ++ "\x7d")) ∧
    (flatAst (c1WitPre ++ ({ name := "version", value := "1.2.0" } : FlatBinding) ::
      c1WitPost)).content =
      ("\x7b " ++ flatBody c1WitPre ++ ("version" ++ " = ")) ++
        ("\"" ++ "1.2.0" ++ "\"") ++ (";" ++ (" " ++ flatBody c1WitPost ++ "\x7d")) :=
  c1_roundtrip_flat c1WitParse c1WitPre c1WitPost "version" "1.0.0" "1.2.0"
    (by decide) (by decide) (by decide) (by decide) (by decide)
    (by decide) (by decide) rfl


/-! ## C4: `update_git` on the canonical flat git recipe -/

theorem exceptBind_ok {α β : Type} (x : α) (f : α → Except String β) :
    ((Except.ok x : Except String α) >>= f) = f x := rfl

theorem exceptBind_pure {α β : Type} (x : α) (f : α → Except String β) :
    ((pure x : Except String α) >>= f) = f x := rfl

/-- C4 (amended): on the canonical flat git recipe
`pname/version/rev/hash` (quote- and interpolation-free values), with an
old revision supplied and a nonempty new revision, `update_git` replaces
the `rev` value, rewrites the `version` value with the revision
substring replaced exactly when the current version contains the old
revision, resolves the old hash from the explicit argument or else the
current `hash` attribute, and replaces the hash exactly when old and new
hash are both nonempty; the result agrees with the claim-side
list-level semantics `updateGitFlat`. -/
theorem c4_update_git_flat (rnixParse : String → NixCst)
    (p cv o new_rev h new_hash : String) (ohArg : Option String)
    (hqp : noQuote p = true) (hqcv : noQuote cv = true) (hqo : noQuote o = true)
    (hqr : noQuote new_rev = true) (hqh : noQuote h = true)
    (hnr : new_rev ≠ "")
    (hni1 : hitInterp (mkString o) = false) (hni2 : hitInterp (mkString cv) = false)
    (hni3 : hitInterp (mkString h) = false)
    (hoh : ohArg = some h ∨ ohArg = none)
    (hp1 : rnixParse (flatContent (c4Bs p cv new_rev h)) = flatTree (c4Bs p cv new_rev h))
    (hp2 : rnixParse (flatContent (c4Bs p (strReplace cv o new_rev) new_rev h)) =
      flatTree (c4Bs p (strReplace cv o new_rev) new_rev h))
    (hp3 : rnixParse (flatContent (c4Bs p
        (if strContains cv o then strReplace cv o new_rev else cv) new_rev new_hash)) =
      flatTree (c4Bs p
        (if strContains cv o then strReplace cv o new_rev else cv) new_rev new_hash)) :
    Ast.update_git rnixParse (flatAst (c4Bs p cv o h)) (some o) new_rev new_hash ohArg =
      .ok (flatAst (c4Bs p (if strContains cv o then strReplace cv o new_rev else cv) new_rev
        (if h ≠ "" && new_hash ≠ "" then new_hash else h))) ∧
    c4Bs p (if strContains cv o then strReplace cv o new_rev else cv) new_rev
        (if h ≠ "" && new_hash ≠ "" then new_hash else h) =
      updateGitFlat (c4Bs p cv o h) (some o) new_rev new_hash ohArg := by
  have hwfA : flatWellFormed [({ name := "pname", value := p } : FlatBinding),
      { name := "version", value := cv }] = true := by
    unfold flatWellFormed
    simp [hqp, hqcv, show noQuote "pname" = true by decide,
      show noQuote "version" = true by decide]
  have hpreA : ∀ b ∈ [({ name := "pname", value := p } : FlatBinding),
      { name := "version", value := cv }], ¬(b.name = "rev" ∧ b.value = o) := by
    intro b hb
    rcases List.mem_cons.mp hb with h1 | hb2
    · subst h1; intro hcon; simp at hcon
    · rcases List.mem_cons.mp hb2 with h1 | hb3
      · subst h1; intro hcon; simp at hcon
      · simp at hb3
  have hset1 : Ast.set rnixParse (flatAst (c4Bs p cv o h)) "rev" o new_rev =
      .ok (flatAst (c4Bs p cv new_rev h)) := by
    rw [show c4Bs p cv o h =
      [({ name := "pname", value := p } : FlatBinding), { name := "version", value := cv }] ++
        ({ name := "rev", value := o } : FlatBinding) :: [{ name := "hash", value := h }]
      from rfl]
    rw [set_flat rnixParse _ _ "rev" o new_rev hwfA hqo hpreA hni1]
    rw [show ([({ name := "pname", value := p } : FlatBinding),
        { name := "version", value := cv }] ++
        ({ name := "rev", value := new_rev } : FlatBinding) :: [{ name := "hash", value := h }])
      = c4Bs p cv new_rev h from rfl]
    rw [hp1]
    rfl
  have hwf1 : flatWellFormed (c4Bs p cv new_rev h) = true := by
    unfold flatWellFormed c4Bs
    simp [hqp, hqcv, hqr, hqh, show noQuote "pname" = true by decide,
      show noQuote "version" = true by decide, show noQuote "rev" = true by decide,
      show noQuote "hash" = true by decide]
  have hget1 : Ast.get (flatAst (c4Bs p cv new_rev h)) "version" = some cv :=
    get_flat_found (c4Bs p cv new_rev h) "version" cv hwf1 rfl
  have hwfB : flatWellFormed [({ name := "pname", value := p } : FlatBinding)] = true := by
    unfold flatWellFormed
    simp [hqp, show noQuote "pname" = true by decide]
  have hpreB : ∀ b ∈ [({ name := "pname", value := p } : FlatBinding)],
      ¬(b.name = "version" ∧ b.value = cv) := by
    intro b hb
    rcases List.mem_cons.mp hb with h1 | hb2
    · subst h1; intro hcon; simp at hcon
    · simp at hb2
  have hset2 : Ast.set rnixParse (flatAst (c4Bs p cv new_rev h)) "version" cv
      (strReplace cv o new_rev) =
      .ok (flatAst (c4Bs p (strReplace cv o new_rev) new_rev h)) := by
    rw [show c4Bs p cv new_rev h =
      [({ name := "pname", value := p } : FlatBinding)] ++
        ({ name := "version", value := cv } : FlatBinding) ::
          [{ name := "rev", value := new_rev }, { name := "hash", value := h }] from rfl]
    rw [set_flat rnixParse _ _ "version" cv (strReplace cv o new_rev) hwfB hqcv hpreB hni2]
    rw [show ([({ name := "pname", value := p } : FlatBinding)] ++
        ({ name := "version", value := strReplace cv o new_rev } : FlatBinding) ::
          [{ name := "rev", value := new_rev }, { name := "hash", value := h }])
      = c4Bs p (strReplace cv o new_rev) new_rev h from rfl]
    rw [hp2]
    rfl
  have hset3 : ∀ w, noQuote w = true →
      rnixParse (flatContent (c4Bs p w new_rev new_hash)) =
        flatTree (c4Bs p w new_rev new_hash) →
      Ast.set rnixParse (flatAst (c4Bs p w new_rev h)) "hash" h new_hash =
        .ok (flatAst (c4Bs p w new_rev new_hash)) := by
    intro w hqw hpw
    have hwfC : flatWellFormed [({ name := "pname", value := p } : FlatBinding),
        { name := "version", value := w }, { name := "rev", value := new_rev }] = true := by
      unfold flatWellFormed
      simp [hqp, hqw, hqr, show noQuote "pname" = true by decide,
        show noQuote "version" = true by decide, show noQuote "rev" = true by decide]
    have hpreC : ∀ b ∈ [({ name := "pname", value := p } : FlatBinding),
        { name := "version", value := w }, { name := "rev", value := new_rev }],
        ¬(b.name = "hash" ∧ b.value = h) := by
      intro b hb
      rcases List.mem_cons.mp hb with h1 | hb2
      · subst h1; intro hcon; simp at hcon
      · rcases List.mem_cons.mp hb2 with h1 | hb3
        · subst h1; intro hcon; simp at hcon
        · rcases List.mem_cons.mp hb3 with h1 | hb4
          · subst h1; intro hcon; simp at hcon
          · simp at hb4
    rw [show c4Bs p w new_rev h =
      [({ name := "pname", value := p } : FlatBinding), { name := "version", value := w },
        { name := "rev", value := new_rev }] ++
        ({ name := "hash", value := h } : FlatBinding) :: ([] : List FlatBinding) from rfl]
    rw [set_flat rnixParse _ _ "hash" h new_hash hwfC hqh hpreC hni3]
    rw [show ([({ name := "pname", value := p } : FlatBinding),
        { name := "version", value := w }, { name := "rev", value := new_rev }] ++
        ({ name := "hash", value := new_hash } : FlatBinding) :: ([] : List FlatBinding))
      = c4Bs p w new_rev new_hash from rfl]
    rw [hpw]
    rfl
  have hgethash : ∀ w, noQuote w = true →
      Ast.get (flatAst (c4Bs p w new_rev h)) "hash" = some h := by
    intro w hqw
    refine get_flat_found _ "hash" h ?_ rfl
    unfold flatWellFormed c4Bs
    simp [hqp, hqw, hqr, hqh, show noQuote "pname" = true by decide,
      show noQuote "version" = true by decide, show noQuote "rev" = true by decide,
      show noQuote "hash" = true by decide]
  constructor
  · unfold Ast.update_git
    dsimp only
    rw [if_pos hnr, hset1, exceptBind_ok, hget1]
    dsimp only
    by_cases hcv : strContains cv o = true
    · simp only [if_pos hcv]
      rw [hset2, exceptBind_ok]
      rcases hoh with rfl | rfl
      · dsimp only
        by_cases hh : (h ≠ "" && new_hash ≠ "") = true
        · simp only [if_pos hh]
          exact hset3 (strReplace cv o new_rev) (noQuote_strReplace o hqcv hqr)
            (by rw [if_pos hcv] at hp3; exact hp3)
        · simp only [if_neg hh]
          rfl
      · rw [hgethash (strReplace cv o new_rev) (noQuote_strReplace o hqcv hqr)]
        simp only [Option.getD_some]
        by_cases hh : (h ≠ "" && new_hash ≠ "") = true
        · simp only [if_pos hh]
          exact hset3 (strReplace cv o new_rev) (noQuote_strReplace o hqcv hqr)
            (by rw [if_pos hcv] at hp3; exact hp3)
        · simp only [if_neg hh]
          rfl
    · simp only [if_neg hcv]
      rw [exceptBind_pure]
      rcases hoh with rfl | rfl
      · dsimp only
        by_cases hh : (h ≠ "" && new_hash ≠ "") = true
        · simp only [if_pos hh]
          exact hset3 cv hqcv (by rw [if_neg hcv] at hp3; exact hp3)
        · simp only [if_neg hh]
          rfl
      · rw [hgethash cv hqcv]
        simp only [Option.getD_some]
        by_cases hh : (h ≠ "" && new_hash ≠ "") = true
        · simp only [if_pos hh]
          exact hset3 cv hqcv (by rw [if_neg hcv] at hp3; exact hp3)
        · simp only [if_neg hh]
          rfl
  · have hr1 : flatReplaceFirst (c4Bs p cv o h) "rev" o new_rev = c4Bs p cv new_rev h := by
      simp [c4Bs, flatReplaceFirst, show (("pname" : String) == "rev") = false by decide,
        show (("version" : String) == "rev") = false by decide,
        show (("rev" : String) == "rev") = true by decide]
    have hr2 : ∀ w, flatReplaceFirst (c4Bs p cv new_rev h) "version" cv w =
        c4Bs p w new_rev h := by
      intro w
      simp [c4Bs, flatReplaceFirst,
        show (("pname" : String) == "version") = false by decide,
        show (("version" : String) == "version") = true by decide]
    have hr3 : ∀ w, flatReplaceFirst (c4Bs p w new_rev h) "hash" h new_hash =
        c4Bs p w new_rev new_hash := by
      intro w
      simp [c4Bs, flatReplaceFirst, show (("pname" : String) == "hash") = false by decide,
        show (("version" : String) == "hash") = false by decide,
        show (("rev" : String) == "hash") = false by decide,
        show (("hash" : String) == "hash") = true by decide]
    unfold updateGitFlat
    dsimp only
    rw [if_pos hnr, hr1]
    rw [show flatLookup (c4Bs p cv new_rev h) "version" = some cv from rfl]
    dsimp only
    by_cases hcv : strContains cv o = true
    · simp only [if_pos hcv]
      rw [hr2]
      rcases hoh with rfl | rfl
      · dsimp only
        by_cases hh : (h ≠ "" && new_hash ≠ "") = true
        · simp only [if_pos hh]
          rw [hr3]
        · simp only [if_neg hh]
      · rw [show flatLookup (c4Bs p (strReplace cv o new_rev) new_rev h) "hash" = some h
          from rfl]
        simp only [Option.getD_some]
        by_cases hh : (h ≠ "" && new_hash ≠ "") = true
        · simp only [if_pos hh]
          rw [hr3]
        · simp only [if_neg hh]
    · simp only [if_neg hcv]
      rcases hoh with rfl | rfl
      · dsimp only
        by_cases hh : (h ≠ "" && new_hash ≠ "") = true
        · simp only [if_pos hh]
          rw [hr3]
        · simp only [if_neg hh]
      · rw [show flatLookup (c4Bs p cv new_rev h) "hash" = some h from rfl]
        simp only [Option.getD_some]
        by_cases hh : (h ≠ "" && new_hash ≠ "") = true
        · simp only [if_pos hh]
          rw [hr3]
        · simp only [if_neg hh]


/-- C4 (counterexample): on
`\x7b rev = "abc"; version = "abc-$\x7bdate\x7d"; hash = "h"; \x7d` with
old revision `abc` and nonempty new revision `def`, the current version
value does contain the old revision as a substring, yet `update_git`
leaves the version unchanged: the rewrite goes through `set`, whose
interpolation guard returns success without editing the buffer. -/
theorem c4_counterexample :
    (Ast.update_git c4Parse c4Ast (some "abc") "def" "sha256-NEW=" none).toOption.map
      (fun a => (a.get "version", a.get "rev", a.get "hash")) =
      some (some "abc-$\x7bdate\x7d", some "def", some "sha256-NEW=") ∧
    strContains "abc-$\x7bdate\x7d" "abc" = true := ⟨by decide, by decide⟩

/-- C4 (witness): the composite on the concrete recipe
`pname = "foo"; version = "1.0-abc"; rev = "abc"; hash = "sha256-A";`
with new revision `def` and new hash `sha256-B`, old hash looked up from
the recipe. -/
theorem c4_witness :
    (Ast.update_git c4WitParse (flatAst (c4Bs "foo" "1.0-abc" "abc" "sha256-A"))
        (some "abc") "def" "sha256-B" none =
      .ok (flatAst (c4Bs "foo"
        (if strContains "1.0-abc" "abc" then strReplace "1.0-abc" "abc" "def" else "1.0-abc")
        "def"
        (if "sha256-A" ≠ "" && "sha256-B" ≠ "" then "sha256-B" else "sha256-A")))) ∧
    c4Bs "foo"
        (if strContains "1.0-abc" "abc" then strReplace "1.0-abc" "abc" "def" else "1.0-abc")
        "def"
        (if "sha256-A" ≠ "" && "sha256-B" ≠ "" then "sha256-B" else "sha256-A") =
      updateGitFlat (c4Bs "foo" "1.0-abc" "abc" "sha256-A") (some "abc") "def" "sha256-B"
        none :=
  c4_update_git_flat c4WitParse "foo" "1.0-abc" "abc" "def" "sha256-A" "sha256-B" none
    (by decide) (by decide) (by decide) (by decide) (by decide) (by decide)
    (by decide) (by decide) (by decide) (Or.inr rfl) rfl rfl rfl


/-! ## C8: the skip gates -/

/-- C8 (amended): the PyPI strategy skips exactly on the shared
predicate (current version equals latest, force unset), marking the
recipe UpToDate with no write; the git strategy gate additionally
requires the stored nix hash to equal the freshly resolved one — when
hash and revision both agree and force is unset it marks UpToDate with
no write, and since nothing is written a second run returns the very
same result (UpToDate both times, recipe untouched). -/
theorem c8_skip_gates (rnixParse : String → NixCst) (pkgVersion latest : String)
    (r : UpdateResultS) (rest : String → UpdateResultS → StrategyOut)
    (pkg : GitPkg) (new_hash : String) (new_rev : Option String)
    (buildStderr : Option String)
    (hv : pkgVersion = latest) (hh : pkg.nix_hash = new_hash)
    (hr : pkg.ast0.get "rev" = new_rev) :
    pypiUpdateGate false (some latest) pkgVersion r rest =
      { result := r.apply .up_to_date, writes := [] } ∧
    gitUpdate rnixParse false (some (new_hash, new_rev)) pkg buildStderr =
      .ok { result := pkg.result.apply .up_to_date, writes := [] } ∧
    gitUpdate rnixParse false (some (new_hash, new_rev))
        { nix_hash := pkg.nix_hash, tree := pkg.tree,
          result := pkg.result.apply .up_to_date } buildStderr =
      .ok { result := pkg.result.apply .up_to_date, writes := [] } ∧
    UpdateStatus.UpToDate ∈ (pkg.result.apply .up_to_date).status := by
  subst hv
  refine ⟨?_, ?_, ?_, ?_⟩
  · unfold pypiUpdateGate
    dsimp only
    rw [if_pos (show should_skip_update false pkgVersion pkgVersion = true by
      simp [should_skip_update])]
  · unfold gitUpdate
    dsimp only
    have hc : (pkg.nix_hash == new_hash &&
        Ast.get (GitPkg.ast0 pkg) "rev" == new_rev && !false) = true := by
      rw [hh, hr]
      simp
    rw [if_pos hc]
  · unfold gitUpdate
    dsimp only
    have hc : (pkg.nix_hash == new_hash &&
        Ast.get (GitPkg.ast0 { nix_hash := pkg.nix_hash, tree := pkg.tree, result := pkg.result.apply .up_to_date }) "rev" == new_rev && !false) = true := by
      rw [show GitPkg.ast0 { nix_hash := pkg.nix_hash, tree := pkg.tree, result := pkg.result.apply .up_to_date } = GitPkg.ast0 pkg from rfl, hh, hr]
      simp
    rw [if_pos hc]
    have hidem : (pkg.result.apply .up_to_date).apply .up_to_date =
        pkg.result.apply .up_to_date := by
      simp [UpdateResultS.apply, Finset.insert_idem]
    rw [hidem]
  · show UpdateStatus.UpToDate ∈ insert UpdateStatus.UpToDate pkg.result.status
    exact Finset.mem_insert_self _ _

/-- C8 (counterexample): a git recipe whose current revision equals the
freshly resolved one (identity match for the revision-based kind) and
with force unset, but whose stored nix hash differs from the resolved
hash: the gate is not taken, the recipe file is written (hash rewritten)
and the run marks Updated, not UpToDate. -/
theorem c8_counterexample :
    ∃ out, gitUpdate c8Parse false (some ("sha256-NEW", some "abc")) c8Pkg none = .ok out ∧
      out.writes = [flatContent c8BindingsNew] ∧
      UpdateStatus.UpToDate ∉ out.result.status ∧
      UpdateStatus.Updated ∈ out.result.status ∧
      c8Pkg.ast0.get "rev" = some "abc" := by
  refine ⟨_, rfl, by decide, by decide, by decide, by decide⟩

/-- C8 (witness): the gates on the concrete recipe
`pname = "x"; version = "1.0"; rev = "abc"; hash = "sha256-OLD";` whose
stored hash and revision both match the resolved ones. -/
theorem c8_witness :
    pypiUpdateGate false (some "1.0") "1.0" UpdateResultS.empty
        (fun _ r2 => { result := r2, writes := [] }) =
      { result := UpdateResultS.empty.apply .up_to_date, writes := [] } ∧
    gitUpdate c8Parse false (some ("sha256-OLD", some "abc")) c8Pkg none =
      .ok { result := c8Pkg.result.apply .up_to_date, writes := [] } ∧
    gitUpdate c8Parse false (some ("sha256-OLD", some "abc"))
        { nix_hash := c8Pkg.nix_hash, tree := c8Pkg.tree,
          result := c8Pkg.result.apply .up_to_date } none =
      .ok { result := c8Pkg.result.apply .up_to_date, writes := [] } ∧
    UpdateStatus.UpToDate ∈ (c8Pkg.result.apply .up_to_date).status :=
  c8_skip_gates c8Parse "1.0" "1.0" UpdateResultS.empty
    (fun _ r2 => { result := r2, writes := [] }) c8Pkg "sha256-OLD" (some "abc") none
    rfl rfl (by decide)

end NixUpdater
